import Mathlib

/-!
Verification of the coordinate-based PDF layout reconstruction engine
(`saadt/pdf/parser/_coordinate.py`).

The engine is embedded shallowly over exact rationals (`ℚ`): page-coordinate
floats become rationals, Python integer arithmetic becomes `Int`/`Nat`, Python
`round` (half-to-even) and `math.floor` are modelled exactly, and fallible
operations (`raise`, `min([])`, out-of-range indexing) become `Except`/`Option`.
The scipy KD-tree is external to the repository; it is modelled by its query
contract (k nearest token centers within a distance bound, nearest first) and
all structural theorems are stated for an arbitrary query function.
Python `while` loops are embedded as fuel-indexed structural recursions, with
the fuel chosen from the loop's termination measure so that the embedded
function computes the loop's actual fixpoint.
-/

/-- Python `round(q)`: nearest integer, ties to even (banker's rounding). -/
def pyRound (q : ℚ) : ℤ :=
  let f : ℤ := ⌊q⌋
  let r : ℚ := q - f
  if r < 1/2 then f
  else if r > 1/2 then f + 1
  else if f % 2 = 0 then f else f + 1

/-- Python `round(q, 4)`: rounding to four decimal places
(`_coordinate.py` uses it on token center abscissas). -/
def round4 (q : ℚ) : ℚ := (pyRound (q * 10000) : ℚ) / 10000

/-- Stable insertion used both to model Python's stable sort and
`bisect.insort` (the new element goes after existing equal elements). -/
def insortBy (lt : α → α → Bool) (x : α) : List α → List α
  | [] => [x]
  | y :: ys => if lt x y then x :: y :: ys else y :: insortBy lt x ys

/-- Stable sort by an irreflexive comparator, modelling Python `list.sort`. -/
def pySort (lt : α → α → Bool) : List α → List α
  | [] => []
  | x :: xs => insortBy lt x (pySort lt xs)

/-- `numpy.median` on a nonempty list: middle element of the sorted list,
or the mean of the two middle elements for even length. -/
def npMedian (l : List ℚ) : ℚ :=
  let s := pySort (fun a b => decide (a < b)) l
  let n := s.length
  if n % 2 = 1 then s.getD (n / 2) 0
  else (s.getD (n / 2 - 1) 0 + s.getD (n / 2) 0) / 2

/-- `_Coordinate`: a point in page space. -/
structure Coordinate where
  x : ℚ
  y : ℚ
deriving DecidableEq, Repr

/-- `_Coordinate.dx`: halved horizontal distance between two points. -/
def Coordinate.dx (self other : Coordinate) : ℚ := |self.x - other.x| / 2

/-- `_Coordinate.dy`: halved vertical distance between two points. -/
def Coordinate.dy (self other : Coordinate) : ℚ := |self.y - other.y| / 2

/-- `_Rectangle`: an axis-aligned box. -/
structure Rectangle where
  x1 : ℚ
  y1 : ℚ
  x2 : ℚ
  y2 : ℚ
deriving DecidableEq, Repr

/-- `_Rectangle.combine`: smallest box enclosing both. -/
def Rectangle.combine (b1 b2 : Rectangle) : Rectangle :=
  ⟨min b1.x1 b2.x1, min b1.y1 b2.y1, max b1.x2 b2.x2, max b1.y2 b2.y2⟩

/-- `_Rectangle.center`. -/
def Rectangle.center (r : Rectangle) : Coordinate :=
  ⟨(r.x1 + r.x2) / 2, (r.y1 + r.y2) / 2⟩

/-- `_Rectangle.height`. -/
def Rectangle.height (r : Rectangle) : ℚ := r.y2 - r.y1

/-- `_Rectangle.width`. -/
def Rectangle.width (r : Rectangle) : ℚ := r.x2 - r.x1

/-- `_Rectangle.contains`. -/
def Rectangle.contains (self other : Rectangle) : Prop :=
  self.x1 ≤ other.x1 ∧ self.x2 ≥ other.x2 ∧ self.y1 ≤ other.y1 ∧ self.y2 ≥ other.y2

instance (r s : Rectangle) : Decidable (r.contains s) := by
  unfold Rectangle.contains; infer_instance

/-- `_Rectangle.dx`: signed horizontal gap (negative means overlap). -/
def Rectangle.dx (self other : Rectangle) : ℚ :=
  max (self.x1 - other.x2) (other.x1 - self.x2)

/-- `_Rectangle.dy`: signed vertical gap (negative means overlap). -/
def Rectangle.dy (self other : Rectangle) : ℚ :=
  max (self.y1 - other.y2) (other.y1 - self.y2)

/-- `_Rectangle.distance`, first two components: gaps clamped at zero. -/
def Rectangle.distance (self other : Rectangle) : ℚ × ℚ :=
  (max 0 (self.dx other), max 0 (self.dy other))

/-- Square of the third component of `_Rectangle.distance`
(`sqrt(dx²+dy²)`); the source only ever compares that component with `0`,
and `sqrt s = 0` iff `s = 0`, so the square is carried instead. -/
def Rectangle.dist2 (self other : Rectangle) : ℚ :=
  (self.distance other).1 ^ 2 + (self.distance other).2 ^ 2

/-- `_Token`: one non-whitespace glyph. -/
structure Token where
  x1 : ℚ
  y1 : ℚ
  x2 : ℚ
  y2 : ℚ
  char : Char
  font_size : ℚ
deriving DecidableEq, Repr

/-- `_Token.center` (cached in `__post_init__`). -/
def Token.center (t : Token) : Coordinate :=
  ⟨(t.x1 + t.x2) / 2, t.y1 + (t.y2 - t.y1) / 2⟩

/-- `_Token.__lt__`: approximate reading-order comparator. -/
def Token.lt (self other : Token) : Bool :=
  let sc := self.center
  let oc := other.center
  if |sc.y - oc.y| < max self.font_size other.font_size * (7/10) then
    decide (sc.x < oc.x)
  else decide (sc.y < oc.y)

/-- `_Token.dx`: distance between horizontal centers. -/
def Token.dx (self other : Token) : ℚ :=
  |self.x1 + self.x2 - other.x1 - other.x2| / 2

/-- `_Token.dy`: distance between vertical centers. -/
def Token.dy (self other : Token) : ℚ :=
  |self.y1 + self.y2 - other.y1 - other.y2| / 2

/-- Default token used to totalize Python list indexing
(the source only indexes in bounds). -/
def dTok : Token := ⟨0, 0, 0, 0, 'a', 0⟩

/-- `_TokenBlock`: a mutable cluster of token indices with an aggregate
bounding rectangle.  The Python `dict[int, None]` keeps keys in insertion
order; it is modelled by an insertion-ordered duplicate-free list. -/
structure TokenBlock where
  x1 : ℚ
  y1 : ℚ
  x2 : ℚ
  y2 : ℚ
  tokens : List ℕ
deriving DecidableEq, Repr

/-- Bounding rectangle of a block (`_TokenBlock` subclasses `_Rectangle`). -/
def TokenBlock.rect (b : TokenBlock) : Rectangle := ⟨b.x1, b.y1, b.x2, b.y2⟩

/-- `_TokenBlock.from_token`. -/
def TokenBlock.from_token (i : ℕ) (t : Token) : TokenBlock :=
  ⟨t.x1, t.y1, t.x2, t.y2, [i]⟩

/-- `_TokenBlock.add`: `self.tokens[i] = None` leaves an existing key in
place and appends a new one; the rectangle always grows to cover `t`. -/
def TokenBlock.add (b : TokenBlock) (i : ℕ) (t : Token) : TokenBlock :=
  ⟨min b.x1 t.x1, min b.y1 t.y1, max b.x2 t.x2, max b.y2 t.y2,
   if b.tokens.contains i then b.tokens else b.tokens ++ [i]⟩

/-- `_TokenBlock.merge`: union of rectangles; `dict.update` appends the
other block's keys, in order, skipping keys already present. -/
def TokenBlock.merge (b o : TokenBlock) : TokenBlock :=
  ⟨min b.x1 o.x1, min b.y1 o.y1, max b.x2 o.x2, max b.y2 o.y2,
   b.tokens ++ o.tokens.filter (fun t => !b.tokens.contains t)⟩

/-- `_TokenBlock.overlaps`: rectangles overlap in both axes beyond a
one-unit margin. -/
def TokenBlock.overlaps (b o : TokenBlock) : Bool :=
  let dx := b.rect.dx o.rect
  let dy := b.rect.dy o.rect
  if dx > 0 ∨ dy > 0 then false
  else decide (|dx| > 1 ∨ |dy| > 1)

/-- Default block used to totalize Python list indexing. -/
def dBlk : TokenBlock := ⟨0, 0, 0, 0, []⟩

/-- One entry of `page.get_text_attributes()`: a run of characters ending at
`end_index` (inclusive) sharing one font size. -/
structure TextAttr where
  end_index : ℕ
  font_size : ℚ
deriving DecidableEq, Repr

/-- Python `text[index].strip()` emptiness test.  Lean's `Char.isWhitespace`
covers space, tab, CR and LF, which is what the scenarios exercise. -/
def isWs (c : Char) : Bool := c.isWhitespace

/-- The two failure modes of `CoordinatePageParser.__init__`:
the explicit `RuntimeError` for a text/layout mismatch, and the
`IndexError` a fully consumed attribute list would raise. -/
inductive TokErr where
  | mismatch
  | attrIndex
deriving DecidableEq, Repr

/-- The cursor advance of the tokenization loop
(`if attrs[attr_index].end_index < index: attr_index += 1`): at most one
run per character. -/
def advanceCursor (attrs : List TextAttr) (index attr_index : ℕ) : ℕ :=
  if (attrs.getD attr_index ⟨0, 0⟩).end_index < index then attr_index + 1 else attr_index

/-- The tokenization loop of `CoordinatePageParser.__init__`
(`for index, rect in enumerate(layout)`): skip whitespace characters,
advance the attribute cursor by one when the current run ends before the
character, and emit one token per non-whitespace character.
`text.getD`/`attrs.getD` totalize Python indexing; an out-of-range
attribute access is surfaced as `TokErr.attrIndex`. -/
def tokLoop (text : List Char) (attrs : List TextAttr) :
    ℕ → ℕ → List Rectangle → Except TokErr (List Token)
  | _, _, [] => .ok []
  | index, attr_index, rect :: rest =>
    if isWs (text.getD index ' ') then tokLoop text attrs (index + 1) attr_index rest
    else if attr_index < attrs.length then
      if advanceCursor attrs index attr_index < attrs.length then
        (tokLoop text attrs (index + 1) (advanceCursor attrs index attr_index) rest).map
          (fun ts => ⟨rect.x1, rect.y1, rect.x2, rect.y2, text.getD index ' ',
                      (attrs.getD (advanceCursor attrs index attr_index) ⟨0, 0⟩).font_size⟩ :: ts)
      else .error .attrIndex
    else .error .attrIndex

/-- `CoordinatePageParser.__init__` up to (but not including) the final
`self.tokens.sort()`: the explicit length guard, then the token loop. -/
def tokenize (text : List Char) (layout : List Rectangle) (attrs : List TextAttr) :
    Except TokErr (List Token) :=
  if text.length < layout.length then .error .mismatch
  else tokLoop text attrs 0 0 layout

/-- Modelled from the spec: the font size of the attribute run covering a
character index — the first run (in order) whose end index is at or after
the index.  Used only to compare the implementation's run-cursor against
the specified "run currently covering that index". -/
def specCoveringFontSize (attrs : List TextAttr) (index : ℕ) : Option ℚ :=
  (attrs.find? (fun a => index ≤ a.end_index)).map (·.font_size)

/-- `CoordinatePageParser.enter_special_script`; the Python chained
comparison `2 < ldy < token.font_size * 0.7 < lfs * 0.7` unrolls to the
three conjuncts below. -/
def enter_special_script (escape : Bool) (token : Token) (ldy lfs : ℚ) : Bool :=
  escape && decide (ldy ≠ 0) && decide (2 < ldy) &&
    decide (ldy < token.font_size * (7/10)) &&
    decide (token.font_size * (7/10) < lfs * (7/10))

/-- `CoordinatePageParser.exit_special_script`; the chain
`token.dy(prev_token) > 2 > ldy` unrolls to its two conjuncts. -/
def exit_special_script (escape : Bool) (prev_token token : Token) (ldy : ℚ) : Bool :=
  escape && decide (token.dy prev_token > 2) && decide (2 > ldy) &&
    decide (token.font_size > prev_token.font_size)

/-- The space heuristic of `CoordinatePageParser.write_line` (lines
216–217): one space exactly when the previous token's right edge lies
strictly left of the current token's left edge and the gap exceeds
0.1 × the current token's font size. -/
def space_sep (prev_token token : Token) : String :=
  if prev_token.x2 < token.x1 ∧ token.x1 - prev_token.x2 > token.font_size * (1/10) then
    " "
  else ""

/-- The body of the `for token in tokens` loop of
`CoordinatePageParser.write_line`, threading the accumulated string, the
`in_specialchars` flag and the previous token. -/
def writeToken (escape : Bool) (line_height line_fs : ℚ)
    (st : String × Bool × Token) (token : Token) : String × Bool × Token :=
  let result := st.1
  let in_specialchars := st.2.1
  let prev_token := st.2.2
  let ldy := |token.center.y - line_height|
  let s1 : String × Bool :=
    if in_specialchars && exit_special_script escape prev_token token ldy then
      (result ++ "]", false)
    else (result, in_specialchars)
  let s2 : String := s1.1 ++ space_sep prev_token token
  let s3 : String × Bool :=
    if !s1.2 && enter_special_script escape token ldy line_fs then
      (s2 ++ "[", true)
    else (s2, s1.2)
  (s3.1 ++ token.char.toString, s3.2, token)

/-- `CoordinatePageParser.write_line`: returns the string the method
appends to its output buffer. -/
def write_line (escape : Bool) (tokens : List Token) : String :=
  match tokens with
  | [] => ""
  | t0 :: _ =>
    let line_height := npMedian (tokens.map (fun t => t.center.y))
    let line_fs := npMedian (tokens.map (fun t => t.font_size))
    let st := tokens.foldl (writeToken escape line_height line_fs) ("", false, t0)
    if st.2.1 then st.1 ++ "]" else st.1

/-- Bracket-balance checker: threads the nesting depth of `[`/`]` through
the character list, failing on a close without a matching open. -/
def balDepth : List Char → ℕ → Option ℕ
  | [], d => some d
  | c :: cs, d =>
    if c = '[' then balDepth cs (d + 1)
    else if c = ']' then
      match d with
      | 0 => none
      | d' + 1 => balDepth cs d'
    else balDepth cs d

/-- A string has balanced square brackets. -/
def balancedB (s : String) : Bool := balDepth s.data 0 == some 0

/-- Query interface of the spatial index (`scipy.spatial.KDTree.query`):
given a point, a metric selector (`true` for Euclidean `p=2`, `false` for
Manhattan `p=1`), a result count and a maximum distance, return token
indices.  The engine's structural properties are proved for an arbitrary
query function; `knnQuery` below is the concrete model of the contract. -/
abbrev QueryFn := Coordinate → Bool → ℕ → ℚ → List ℕ

/-- Concrete model of `KDTree.query` on the token centers: the up-to-`k`
indices within `bound` of the point, nearest first (ties by index).
For the Euclidean metric, squared distances are compared — the ordering
and the bound test are unchanged.  scipy pads its result with the
out-of-range index `n`; every caller filters those out, so the model
omits them. -/
def knnQuery (toks : List Token) : QueryFn := fun c isL2 k bound =>
  let dist : ℕ → ℚ := fun i =>
    let t := toks.getD i dTok
    if isL2 then (t.center.x - c.x) ^ 2 + (t.center.y - c.y) ^ 2
    else |t.center.x - c.x| + |t.center.y - c.y|
  let inBound : ℕ → Bool := fun i =>
    if isL2 then decide (0 ≤ bound ∧ dist i ≤ bound ^ 2)
    else decide (dist i ≤ bound)
  let within := (List.range toks.length).filter inBound
  (pySort (fun a b => decide (dist a < dist b ∨ (dist a = dist b ∧ a < b))) within).take k

/-- `CoordinatePageParser.find_block`, returning the position of the first
block owning the index (the Python method returns the block object itself;
the position identifies it in the functional state). -/
def find_block (blocks : List TokenBlock) (index : ℕ) : Option ℕ :=
  (List.range blocks.length).find? (fun k => (blocks.getD k dBlk).tokens.contains index)

/-- `CoordinatePageParser.check_overlap`: `true` when no *other* block
touches the bounding box of the candidate group.  Faithful to the Python
`not any(k for k in range(len(self.blocks)) if ...)`: the generator yields
the *index* `k`, so a qualifying block at index `0` is falsy and never
vetoes a merge. -/
def check_overlap (blocks : List TokenBlock) (indices : List ℕ)
    (group : List TokenBlock) : Bool :=
  let h := group.headD dBlk
  let temp : Rectangle :=
    ⟨group.foldl (fun a b => min a b.x1) h.x1, group.foldl (fun a b => min a b.y1) h.y1,
     group.foldl (fun a b => max a b.x2) h.x2, group.foldl (fun a b => max a b.y2) h.y2⟩
  !((List.range blocks.length).any (fun k =>
      decide (k ≠ 0) && !(indices.contains k) &&
        ((blocks.getD k dBlk).rect.dist2 temp == 0)))

/-- `CoordinatePageParser.find_below`: position of the nearest block
strictly below `rect` that is horizontally aligned (`dx = 0`), skipping
blocks contained in `rect`. -/
def find_below (blocks : List TokenBlock) (rect : Rectangle) : Option ℕ :=
  ((List.range blocks.length).foldl (fun acc k =>
      let b := (blocks.getD k dBlk).rect
      if rect.contains b then acc
      else if b.y1 < rect.y2 then acc
      else
        let d := b.distance rect
        if decide (d.1 = 0) && (match acc.2 with
            | some m => decide (d.2 < m)
            | none => true) then
          (some k, some d.2)
        else acc)
    ((none, none) : Option ℕ × Option ℚ)).1

/-- In-place `b1.merge(b2); del blocks[j]` with `b1 = blocks[i]`,
`b2 = blocks[j]`: the primitive state change shared by every merge pass.
The source only reaches it with two distinct in-range positions; other
arguments leave the state unchanged. -/
def mergeDelete (blocks : List TokenBlock) (i j : ℕ) : List TokenBlock :=
  if i < blocks.length ∧ j < blocks.length ∧ i ≠ j then
    (blocks.set i ((blocks.getD i dBlk).merge (blocks.getD j dBlk))).eraseIdx j
  else blocks

/-- The `for ni in neighbors` absorption step of
`CoordinatePageParser.process_neighbor`: unclustered neighbors within
vertical tolerance of the frontier join the block at `bIdx`. -/
def absorb (toks : List Token) (token : Token) (bIdx : ℕ)
    (blocks : List TokenBlock) (neighbors : List ℕ) : List TokenBlock :=
  neighbors.foldl (fun bs ni =>
    let t2 := toks.getD ni dTok
    if token.dy t2 < token.font_size * (7/10) ∧
        ¬(bs.getD bIdx dBlk).tokens.contains ni ∧ find_block bs ni = none then
      bs.set bIdx ((bs.getD bIdx dBlk).add ni t2)
    else bs) blocks

/-- Number of tokens strictly ahead of the frontier in rounded center
abscissa: the termination measure of the neighbor walk. -/
def countAhead (toks : List Token) (tok : Token) : ℕ :=
  (toks.filter (fun t => decide (round4 tok.center.x < round4 t.center.x))).length

/-- The `while len(neighbors) > 0` loop of
`CoordinatePageParser.process_neighbor`, as a fuel-indexed recursion:
absorb the current neighbor list, advance the frontier to the first
neighbor strictly ahead in rounded center abscissa (or stop), and
re-query for the next neighbor list. -/
def pnAux (query : QueryFn) (toks : List Token) (start_token : Token) :
    ℕ → Token → ℕ → List TokenBlock → List ℕ → List TokenBlock
  | 0, _, _, blocks, _ => blocks
  | fuel + 1, token, bIdx, blocks, neighbors =>
    if neighbors.isEmpty then blocks
    else
      let blocks1 := absorb toks token bIdx blocks neighbors
      match neighbors.find?
          (fun i => decide (round4 token.center.x < round4 (toks.getD i dTok).center.x)) with
      | none => blocks1
      | some token_i =>
        let token2 := toks.getD token_i dTok
        let nn := query token2.center true 10 (token2.font_size * 2)
        let next_neighbors := nn.filter (fun n =>
          decide (n < toks.length ∧ n ≠ token_i ∧
            (toks.getD n dTok).center.x > token2.x1 ∧
            (toks.getD n dTok).dy token2 < token2.font_size * (7/10) ∧
            (toks.getD n dTok).dy start_token < start_token.font_size))
        pnAux query toks start_token fuel token2 bIdx blocks1 next_neighbors

/-- `CoordinatePageParser.process_neighbor`, run with enough fuel for its
termination measure (each frontier advance strictly increases the rounded
center abscissa, so at most `countAhead` advances happen). -/
def process_neighbor (query : QueryFn) (toks : List Token) (start_token : Token)
    (bIdx : ℕ) (blocks : List TokenBlock) (neighbors : List ℕ) : List TokenBlock :=
  pnAux query toks start_token (countAhead toks start_token + 1) start_token bIdx
    blocks neighbors

/-- Joining or creating a block for the current token
(`block = None` / `from_token` / `add`), then the optional forward walk:
`sel` is the position of the first previous neighbor's block. -/
def formStep2 (query : QueryFn) (toks : List Token) (current : ℕ) (token : Token)
    (sel : Option ℕ) (next_neighbors : List ℕ)
    (blocks : List TokenBlock) : List TokenBlock :=
  let st : List TokenBlock × ℕ :=
    match sel with
    | none => (blocks ++ [TokenBlock.from_token current token], blocks.length)
    | some bIdx => (blocks.set bIdx ((blocks.getD bIdx dBlk).add current token), bIdx)
  if next_neighbors.isEmpty then st.1
  else process_neighbor query toks token st.2 st.1 next_neighbors

/-- One iteration of the formation loop for an unclustered token: query
the spatial index, split the neighbors into previous/next candidates,
then join or create a block and run the forward walk. -/
def formStep (query : QueryFn) (toks : List Token) (current : ℕ)
    (blocks : List TokenBlock) : List TokenBlock :=
  let token := toks.getD current dTok
  let nn := query token.center false 10 (token.font_size * (3/2))
  let prev_neighbors := nn.filter (fun n =>
    decide (n < toks.length ∧ n ≠ current ∧
      ((toks.getD n dTok).center.x ≤ token.center.x ∨
       (toks.getD n dTok).center.y < token.center.y) ∧
      (toks.getD n dTok).dy token < token.font_size))
  let next_neighbors := nn.filter (fun n =>
    decide (n < toks.length ∧ n ≠ current ∧
      (toks.getD n dTok).center.x > token.center.x ∧
      (toks.getD n dTok).dy token < token.font_size * (7/10)))
  formStep2 query toks current token
    (prev_neighbors.findSome? (fun ni => find_block blocks ni)) next_neighbors blocks

/-- The block-formation loop of `CoordinatePageParser.run`
(`for current in range(len(self.tokens))`). -/
def formLoop (query : QueryFn) (toks : List Token) :
    ℕ → ℕ → List TokenBlock → List TokenBlock
  | 0, _, blocks => blocks
  | fuel + 1, current, blocks =>
    if current < toks.length then
      if (find_block blocks current).isSome then
        formLoop query toks fuel (current + 1) blocks
      else
        formLoop query toks fuel (current + 1) (formStep query toks current blocks)
    else blocks

/-- Block formation (`CoordinatePageParser.run`, lines 310–350), starting
from the sorted token list and an empty block list. -/
def formation (query : QueryFn) (toks : List Token) : List TokenBlock :=
  formLoop query toks toks.length 0 []

/-- Font size of a block: the font size of its first inserted token
(`self.tokens[next(iter(b.tokens))].font_size`). -/
def firstTokenFs (toks : List Token) (b : TokenBlock) : ℚ :=
  (toks.getD (b.tokens.headD 0) dTok).font_size

/-- Inner `while j < len(self.blocks)` loop of the overlap-merge pass:
scan the blocks after `b1`, absorbing every overlapping one into `b1`
(subsequent comparisons see the grown `b1`; blocks already passed are not
revisited). -/
def overlapInner (b1 : TokenBlock) : List TokenBlock → TokenBlock × List TokenBlock
  | [] => (b1, [])
  | b2 :: rest =>
    if b1.overlaps b2 then overlapInner (b1.merge b2) rest
    else
      let r := overlapInner b1 rest
      (r.1, b2 :: r.2)

/-- Outer `while i < len(self.blocks)` loop of the overlap-merge pass. -/
def overlapOuter : ℕ → List TokenBlock → List TokenBlock
  | 0, blocks => blocks
  | _ + 1, [] => []
  | fuel + 1, b :: rest =>
    let r := overlapInner b rest
    r.1 :: overlapOuter fuel r.2

/-- Merge pass 1 (`# First pass, merge overlapping blocks`). -/
def pass_overlap (blocks : List TokenBlock) : List TokenBlock :=
  overlapOuter blocks.length blocks

/-- The committing `for ki in range(len(bs) - 1, 0, -1)` loop of the
small-line pass: chain-merge the collected group (positions `bi`, strictly
increasing) into its first member, deleting from the highest position
down. -/
def commitChain (blocks : List TokenBlock) (bi : List ℕ) : List TokenBlock :=
  ((bi.zip (bi.drop 1)).reverse).foldl (fun bs p => mergeDelete bs p.1 p.2) blocks

/-- The `while l < len(self.blocks) - 1` candidate-collection loop of the
small-line pass.  `safe` is the Python `is_overlap` flag (despite its
source name it means "merging the group with the block below introduces no
foreign overlap"); it is recomputed at the top of every iteration from the
group collected so far. -/
def slCollect (blocks : List TokenBlock) (b2 : TokenBlock) (b2fs : ℚ) (k : ℕ) :
    ℕ → ℕ → List ℕ → Bool → List ℕ × Bool
  | 0, _, bi, safe => (bi, safe)
  | fuel + 1, l, bi, safe =>
    if l < blocks.length then
      let grp := bi.map (fun t => blocks.getD t dBlk)
      let safe1 := check_overlap blocks (bi ++ [k]) (grp ++ [blocks.getD k dBlk])
      let b3 := blocks.getD l dBlk
      if |b2.rect.height - b3.rect.height| > b2fs * (3/10) then
        slCollect blocks b2 b2fs k fuel (l + 1) bi safe1
      else if ⌊b2.rect.center.dy b3.rect.center⌋ = 0 ∧
          check_overlap blocks (bi ++ [l]) (grp ++ [b3]) = true then
        if safe1 = true ∧
            check_overlap blocks (bi ++ [l, k]) (grp ++ [b3, blocks.getD k dBlk]) = false then
          (bi, safe1)
        else slCollect blocks b2 b2fs k fuel (l + 1) (bi ++ [l]) safe1
      else slCollect blocks b2 b2fs k fuel (l + 1) bi safe1
    else (bi, safe)

/-- Inner `while j < len(self.blocks) - 1` loop of the small-line pass
(`# Third pass, merge small pieces that are on the same line`). -/
def slInner (toks : List Token) : ℕ → ℕ → ℚ → ℕ → List TokenBlock → List TokenBlock
  | 0, _, _, _, blocks => blocks
  | fuel + 1, i, b1fs, j, blocks =>
    if j < blocks.length then
      let b1 := blocks.getD i dBlk
      let b2 := blocks.getD j dBlk
      let b2fs := firstTokenFs toks b2
      if b2.rect.height > 2 * b2fs then slInner toks fuel i b1fs (j + 1) blocks
      else if ⌊b1.rect.center.dy b2.rect.center⌋ = 0 ∧
          check_overlap blocks [i, j] [b1, b2] = true then
        if find_below blocks b1.rect ≠ find_below blocks b2.rect then
          slInner toks fuel i b1fs (j + 1) blocks
        else
          match find_below blocks (b1.rect.combine b2.rect) with
          | some k =>
            if (blocks.getD k dBlk).rect.dy b1.rect < 2 * b1fs then
              let col := slCollect blocks b2 b2fs k (2 * blocks.length + 2) (j + 1) [i, j] false
              if col.2 then slInner toks fuel i b1fs j (commitChain blocks col.1)
              else slInner toks fuel i b1fs (j + 1) blocks
            else slInner toks fuel i b1fs (j + 1) blocks
          | none => slInner toks fuel i b1fs (j + 1) blocks
      else slInner toks fuel i b1fs (j + 1) blocks
    else blocks

/-- Outer loop of the small-line pass; `b1`'s height test and font size are
fixed when the row is entered, as in the source. -/
def slOuter (toks : List Token) : ℕ → ℕ → List TokenBlock → List TokenBlock
  | 0, _, blocks => blocks
  | fuel + 1, i, blocks =>
    if i < blocks.length then
      let b1 := blocks.getD i dBlk
      let b1fs := firstTokenFs toks b1
      if b1.rect.height > 2 * b1fs then slOuter toks fuel (i + 1) blocks
      else slOuter toks fuel (i + 1) (slInner toks (2 * blocks.length + 2) i b1fs (i + 1) blocks)
    else blocks

/-- Merge pass 2 in execution order: the small-line pass. -/
def pass_smallline (toks : List Token) (blocks : List TokenBlock) : List TokenBlock :=
  slOuter toks (blocks.length + 1) 0 blocks

/-- Inner loop of the paragraph pass (`# Second pass, paragraph merging`). -/
def paraInner (toks : List Token) : ℕ → ℕ → ℕ → List TokenBlock → List TokenBlock
  | 0, _, _, blocks => blocks
  | fuel + 1, i, j, blocks =>
    if j < blocks.length then
      let b1 := blocks.getD i dBlk
      let b2 := blocks.getD j dBlk
      let d := b1.rect.distance b2.rect
      let font_size := firstTokenFs toks b2
      if pyRound d.1 = 0 ∧ d.2 < font_size ∧ check_overlap blocks [i, j] [b1, b2] = true then
        paraInner toks fuel i j (mergeDelete blocks i j)
      else paraInner toks fuel i (j + 1) blocks
    else blocks

/-- Outer loop of the paragraph pass. -/
def paraOuter (toks : List Token) : ℕ → ℕ → List TokenBlock → List TokenBlock
  | 0, _, blocks => blocks
  | fuel + 1, i, blocks =>
    if i < blocks.length then
      paraOuter toks fuel (i + 1) (paraInner toks (blocks.length + 1) i (i + 1) blocks)
    else blocks

/-- Merge pass 3 in execution order: the paragraph pass. -/
def pass_paragraph (toks : List Token) (blocks : List TokenBlock) : List TokenBlock :=
  paraOuter toks (blocks.length + 1) 0 blocks

/-- Merge pass 4 (`# Merge column blocks forward`): merge each block with
the nearest aligned block below it; after a merge the same position is
revisited (`i -= 1` before the loop's `i += 1`). -/
def colLoop (toks : List Token) : ℕ → ℕ → List TokenBlock → List TokenBlock
  | 0, _, blocks => blocks
  | fuel + 1, i, blocks =>
    if i < blocks.length then
      let b1 := blocks.getD i dBlk
      match find_below blocks b1.rect with
      | some j =>
        let b2 := blocks.getD j dBlk
        let font_size := firstTokenFs toks b2
        let d := b1.rect.distance b2.rect
        if (b1.rect.center.dx b2.rect.center < font_size ∧ d.2 < font_size) ∨
            ((|b1.x1 - b2.x1| < font_size ∨ |b1.x2 - b2.x2| < font_size) ∧
              d.2 < font_size * 2) then
          if check_overlap blocks [i, j] [b1, b2] then
            colLoop toks fuel i (mergeDelete blocks i j)
          else colLoop toks fuel (i + 1) blocks
        else colLoop toks fuel (i + 1) blocks
      | none => colLoop toks fuel (i + 1) blocks
    else blocks

/-- Merge pass 4 entry point. -/
def pass_colfwd (toks : List Token) (blocks : List TokenBlock) : List TokenBlock :=
  colLoop toks (2 * blocks.length + 2) 0 blocks

/-- Merge pass 5 (`# Merge big same-width columns`). -/
def bigLoop (toks : List Token) : ℕ → ℕ → List TokenBlock → List TokenBlock
  | 0, _, blocks => blocks
  | fuel + 1, i, blocks =>
    if i < blocks.length then
      let b1 := blocks.getD i dBlk
      let b1fs := firstTokenFs toks b1
      if b1.rect.height < 2 * b1fs then bigLoop toks fuel (i + 1) blocks
      else
        match find_below blocks b1.rect with
        | some j =>
          let b2 := blocks.getD j dBlk
          let font_size := firstTokenFs toks b2
          if b2.rect.height < 2 * font_size then bigLoop toks fuel (i + 1) blocks
          else if |b1.x1 - b2.x1| < font_size ∧ |b1.x2 - b2.x2| < font_size * (7/10) ∧
              check_overlap blocks [i, j] [b1, b2] = true then
            bigLoop toks fuel i (mergeDelete blocks i j)
          else bigLoop toks fuel (i + 1) blocks
        | none => bigLoop toks fuel (i + 1) blocks
    else blocks

/-- Merge pass 5 entry point. -/
def pass_big (toks : List Token) (blocks : List TokenBlock) : List TokenBlock :=
  bigLoop toks (2 * blocks.length + 2) 0 blocks

/-- The `while k < len(self.blocks)` column-candidate loop of the
horizontal pass: co-located blocks after `j` are merged into `b2`. -/
def horizK (toks : List Token) (i j : ℕ) : ℕ → ℕ → List TokenBlock → List TokenBlock
  | 0, _, blocks => blocks
  | fuel + 1, k, blocks =>
    if k < blocks.length then
      let b1 := blocks.getD i dBlk
      let b2 := blocks.getD j dBlk
      let b3 := blocks.getD k dBlk
      let d := b2.rect.distance b3.rect
      if d.2 = 0 ∧ (b1.rect.distance b3.rect).1 = 0 ∧
          check_overlap blocks [j, k] [b2, b3] = true then
        horizK toks i j fuel k (mergeDelete blocks j k)
      else horizK toks i j fuel (k + 1) blocks
    else blocks

/-- Inner `while j < len(self.blocks)` loop of the horizontal pass,
returning the new state and the `merged` flag. -/
def horizJ (toks : List Token) (i : ℕ) :
    ℕ → ℕ → Bool → List TokenBlock → List TokenBlock × Bool
  | 0, _, merged, blocks => (blocks, merged)
  | fuel + 1, j, merged, blocks =>
    if j < blocks.length then
      let b1 := blocks.getD i dBlk
      let b2 := blocks.getD j dBlk
      let d := b1.rect.distance b2.rect
      let font_size := firstTokenFs toks b2
      if d.1 = 0 ∧
          (b1.x1 - font_size * (7/10) < b2.x1 ∨ b1.rect.center.dx b2.rect.center < font_size) ∧
          b1.x2 + font_size * (7/10) > b2.x2 ∧ d.2 < font_size * 2 then
        let blocks1 := horizK toks i j (blocks.length + 1) (j + 1) blocks
        if check_overlap blocks1 [i, j] [blocks1.getD i dBlk, blocks1.getD j dBlk] then
          horizJ toks i fuel j true (mergeDelete blocks1 i j)
        else horizJ toks i fuel (j + 1) merged blocks1
      else horizJ toks i fuel (j + 1) merged blocks
    else (blocks, merged)

/-- Outer loop of the horizontal pass (`# try horizontal merging`):
the row index only advances when no merge happened in the inner loop. -/
def horizI (toks : List Token) : ℕ → ℕ → List TokenBlock → List TokenBlock
  | 0, _, blocks => blocks
  | fuel + 1, i, blocks =>
    if i < blocks.length then
      let r := horizJ toks i (2 * blocks.length + 2) (i + 1) false blocks
      horizI toks fuel (if r.2 then i else i + 1) r.1
    else blocks

/-- Merge pass 6 entry point. -/
def pass_horizontal (toks : List Token) (blocks : List TokenBlock) : List TokenBlock :=
  horizI toks (2 * blocks.length + 2) 0 blocks

/-- The six merge passes of `CoordinatePageParser.run`, in execution order:
overlap, small-line, paragraph, column-forward, big-column, horizontal. -/
def sixPasses (toks : List Token) (blocks : List TokenBlock) : List TokenBlock :=
  pass_horizontal toks (pass_big toks (pass_colfwd toks
    (pass_paragraph toks (pass_smallline toks (pass_overlap blocks)))))

/-- `CoordinatePageParser.sort_blocks`: partition the final blocks into
header / left / right / footer / center by page-relative position, then
reclassify and interleave the center blocks.  `min(...)`/`max(...)` over
the block list raise `ValueError` on an empty page, modelled by `none`. -/
def sort_blocks (toks : List Token) (w h : ℚ) (blocks : List TokenBlock) :
    Option (List TokenBlock) :=
  match blocks with
  | [] => none
  | b0 :: _ =>
    let y_min := blocks.foldl (fun a b => min a b.y1) b0.y1
    let y_max := blocks.foldl (fun a b => max a b.y2) b0.y2
    let page_center := w / 2
    let cls := blocks.foldl (fun (acc : List TokenBlock × List TokenBlock ×
        List TokenBlock × List TokenBlock × List TokenBlock) block =>
      let fs := firstTokenFs toks block
      if pyRound block.y1 = pyRound y_min ∧
          (block.rect.height < 3 * fs ∨ (block.x1 < page_center ∧ page_center < block.x2)) then
        (acc.1 ++ [block], acc.2.1, acc.2.2.1, acc.2.2.2.1, acc.2.2.2.2)
      else if pyRound block.y2 = pyRound y_max ∧
          (block.rect.height < 3 * fs ∨ (block.x1 < page_center ∧ page_center < block.x2)) then
        (acc.1, acc.2.1, acc.2.2.1, acc.2.2.2.1 ++ [block], acc.2.2.2.2)
      else if block.x2 < page_center then
        (acc.1, acc.2.1 ++ [block], acc.2.2.1, acc.2.2.2.1, acc.2.2.2.2)
      else if block.x1 > page_center then
        (acc.1, acc.2.1, acc.2.2.1 ++ [block], acc.2.2.2.1, acc.2.2.2.2)
      else
        (acc.1, acc.2.1, acc.2.2.1, acc.2.2.2.1, acc.2.2.2.2 ++ [block]))
      ([], [], [], [], [])
    let header := cls.1
    let left := cls.2.1
    let right := cls.2.2.1
    let footer := cls.2.2.2.1
    let center := cls.2.2.2.2
    let min_left_y : ℚ := if left.isEmpty then h else (pyRound (left.headD dBlk).y1 : ℚ)
    let max_left_y : ℚ := if left.isEmpty then 0 else (pyRound ((left.getLast?.getD dBlk).y2) : ℚ)
    let min_right_y : ℚ := if right.isEmpty then h else (pyRound (right.headD dBlk).y1 : ℚ)
    let max_right_y : ℚ := if right.isEmpty then 0 else (pyRound ((right.getLast?.getD dBlk).y2) : ℚ)
    let toHead : TokenBlock → Bool := fun b =>
      decide ((pyRound b.y2 : ℚ) ≤ min_left_y ∧ (pyRound b.y2 : ℚ) ≤ min_right_y)
    let toFoot : TokenBlock → Bool := fun b =>
      !toHead b && decide ((pyRound b.y1 : ℚ) ≥ max_left_y ∧ (pyRound b.y1 : ℚ) ≥ max_right_y)
    let header2 := header ++ center.filter toHead
    let footer2 := (center.filter toFoot) ++ footer
    let center1 := center.filter (fun b => !toHead b && !toFoot b)
    let inter := center1.foldl (fun (st : List TokenBlock × List TokenBlock × List TokenBlock) b1 =>
      let flush : TokenBlock → Bool := fun b2 => decide (b2.y2 ≤ b1.y1 + 1)
      let inside : TokenBlock → Bool := fun b2 =>
        decide (b1.y1 < b2.rect.center.y ∧ b2.rect.center.y < b1.y2)
      let nc1 := st.1 ++ st.2.1.filter flush
      let lf1 := st.2.1.filter (fun b2 => !flush b2)
      let nc2 := nc1 ++ st.2.2.filter flush
      let rt1 := st.2.2.filter (fun b2 => !flush b2)
      let nc3 := nc2 ++ lf1.filter inside
      let lf2 := lf1.filter (fun b2 => !inside b2)
      let nc4 := (nc3 ++ [b1]) ++ rt1.filter inside
      let rt2 := rt1.filter (fun b2 => !inside b2)
      (nc4, lf2, rt2)) ([], left, right)
    some (header2 ++ inter.1 ++ inter.2.1 ++ inter.2.2 ++ footer2)

/-- The per-block emission loop of `CoordinatePageParser.run`
(lines 522–548): iterate the block's tokens in insertion order, split
lines on large vertical-and-horizontal jumps (1–3 newlines scaled by the
jump), keep the running sorted `heights` list via `bisect.insort`, and
finish with the forced `write_line` and three newlines. -/
def emitBlock (escape : Bool) (toks : List Token) (buffer : String)
    (block : TokenBlock) : String :=
  let prev0 := toks.getD (block.tokens.headD 0) dTok
  let st := block.tokens.foldl
    (fun (st : String × Token × List Token × List ℚ) i =>
      let buf := st.1
      let prev := st.2.1
      let line := st.2.2.1
      let heights := st.2.2.2
      let token := toks.getD i dTok
      let line_height := heights.getD (heights.length / 2) 0
      let dy := |token.center.y - line_height|
      if prev.dy token > token.font_size * (7/10) ∧ prev.dx token > token.font_size then
        let buf1 := buf ++ write_line escape line
        let newlines := max 1 (min 3 ⌊dy / (token.font_size * (7/10))⌋)
        let buf2 := buf1 ++ String.mk (List.replicate newlines.toNat '\n')
        (buf2, token, [token], insortBy (fun a b => decide (a < b)) token.center.y [])
      else
        (buf, token, line ++ [token],
         insortBy (fun a b => decide (a < b)) token.center.y heights))
    (buffer, prev0, [], [prev0.center.y])
  let buf3 := if st.2.2.1.isEmpty then st.1 else st.1 ++ write_line escape st.2.2.1
  buf3 ++ "\n\n\n"

/-- Emission over the sorted blocks. -/
def emit (escape : Bool) (toks : List Token) (blocks : List TokenBlock) : String :=
  blocks.foldl (emitBlock escape toks) ""

/-- `CoordinatePageParser.run` from the (sorted) token list to the page
text: block formation, the six merge passes, `sort_blocks` and emission.
`none` models the `ValueError` that `sort_blocks` raises on a page with
no blocks. -/
def run (escape : Bool) (query : QueryFn) (toks : List Token) (w h : ℚ) : Option String :=
  let blocks := sixPasses toks (formation query toks)
  (sort_blocks toks w h blocks).map (emit escape toks)

/-- Concatenation of all blocks' token-index lists, in block order. -/
def flatTokens (blocks : List TokenBlock) : List ℕ :=
  (blocks.map TokenBlock.tokens).flatten

/-- The token-to-block partition invariant: no index occurs twice across
the blocks, and the indices present are exactly `0, …, n-1`. -/
def partitionOk (n : ℕ) (blocks : List TokenBlock) : Prop :=
  (flatTokens blocks).Nodup ∧ ∀ i, i ∈ flatTokens blocks ↔ i < n

/-- Start of the `j`-th attribute run: one past the previous run's end
(runs are contiguous, ordered, and end-inclusive). -/
def runStart (attrs : List TextAttr) (j : ℕ) : ℕ :=
  if j = 0 then 0 else (attrs.getD (j - 1) ⟨0, 0⟩).end_index + 1

/-- Scenario E input: an "x" at font size 10 on the line's baseline
(center y = 100) followed immediately by a "2" at font size 6 whose
center sits 3 units above it (center y = 97). -/
def scenarioE : List Token := [⟨0, 95, 6, 105, 'x', 10⟩, ⟨6, 94, 10, 100, '2', 6⟩]

/-- Scenario B input: "P","D" at y=100, x = 10 and x = 10 + font size,
font size 10, zero horizontal gap. -/
def scenarioB : List Token := [⟨10, 95, 20, 105, 'P', 10⟩, ⟨20, 95, 30, 105, 'D', 10⟩]

/-- Scenario C input: the words "PDF" and "Parser" on one baseline with a
3-unit gap between them at font size 10, all other glyphs abutting. -/
def scenarioC : List Token :=
  [⟨0, 95, 6, 105, 'P', 10⟩, ⟨6, 95, 12, 105, 'D', 10⟩, ⟨12, 95, 18, 105, 'F', 10⟩,
   ⟨21, 95, 27, 105, 'P', 10⟩, ⟨27, 95, 33, 105, 'a', 10⟩, ⟨33, 95, 39, 105, 'r', 10⟩,
   ⟨39, 95, 45, 105, 's', 10⟩, ⟨45, 95, 51, 105, 'e', 10⟩, ⟨51, 95, 57, 105, 'r', 10⟩]

/-- A line whose last token is a genuine superscript: "ab" at font size 10
on the baseline, then "s" at font size 6 offset 3.5 units above it. -/
def scriptLine : List Token :=
  [⟨0, 95, 6, 105, 'a', 10⟩, ⟨6, 95, 12, 105, 'b', 10⟩, ⟨12, 93, 16, 100, 's', 6⟩]

/-- Four far-apart glyphs (font size 1/100, so the spatial index finds no
neighbors and every glyph forms its own block), already in the reading
order `_Token.__lt__` induces.  Block 1 (`a`) overlaps block 3 (`c`);
their union overlaps block 2 (`b`), which the overlap sweep has already
passed; block 0 (`r`) touches the union of all three. -/
def mergeToks : List Token :=
  [⟨40, 0, 45, 5, 'r', 1/100⟩, ⟨0, 0, 10, 10, 'a', 1/100⟩,
   ⟨30, 12, 40, 22, 'b', 1/100⟩, ⟨5, 8, 35, 40, 'c', 1/100⟩]

/-- Two distant blocks that do not overlap: a fixed point of the
overlap-merge pass. -/
def apartBlocks : List TokenBlock := [⟨0, 0, 1, 1, [0]⟩, ⟨50, 0, 51, 1, [1]⟩]

unseal Rat.sub Rat.add Rat.mul Rat.inv in
/-- C1 counterexample: on the block set formed from `mergeToks`, the
overlap-merge pass leaves two blocks whose rectangles still overlap
(merging block 3 into block 1 grew it over block 2, which the sweep had
already passed), and running the pass a second time performs a further
merge, so the pass is not a fixed point. -/
theorem c1_counterexample :
    ((pass_overlap (formation (knnQuery mergeToks) mergeToks)).getD 1 dBlk).overlaps
      ((pass_overlap (formation (knnQuery mergeToks) mergeToks)).getD 2 dBlk) = true ∧
    pass_overlap (pass_overlap (formation (knnQuery mergeToks) mergeToks)) ≠
      pass_overlap (formation (knnQuery mergeToks) mergeToks) := by
  decide

unseal Rat.sub Rat.add Rat.mul Rat.inv in
/-- C9 counterexample: applying the six merge passes a second time to the
result of the first application performs further merges (the first
application leaves two blocks, the second collapses them to one). -/
theorem c9_counterexample :
    sixPasses mergeToks (sixPasses mergeToks (formation (knnQuery mergeToks) mergeToks)) ≠
      sixPasses mergeToks (formation (knnQuery mergeToks) mergeToks) := by
  decide

/-- C3: a page with zero non-whitespace tokens tokenizes to the empty
token list, and `run` on it fails (`sort_blocks` takes `min` of the empty
block list, raising `ValueError`) instead of returning the empty string. -/
theorem c3_empty_page :
    tokenize [' '] [⟨0, 0, 1, 1⟩] [⟨0, 12⟩] = .ok [] ∧
    run true (knnQuery []) [] 612 792 = none :=
  ⟨rfl, rfl⟩

/-- C4 counterexample: with the text longer than the rectangle array the
constructor succeeds (the claim says it must fail), and with the
rectangle array longer than the text it raises the mismatch error (the
claim says all such inputs succeed). -/
theorem c4_counterexample :
    tokenize ['a', 'b'] [⟨0, 0, 1, 1⟩] [⟨5, 10⟩] = .ok [⟨0, 0, 1, 1, 'a', 10⟩] ∧
    tokenize ['a'] [⟨0, 0, 1, 1⟩, ⟨1, 0, 2, 1⟩] [⟨5, 10⟩] = .error .mismatch :=
  ⟨rfl, rfl⟩

/-- C5 counterexample: with runs `(end 0, size 10), (end 1, size 20),
(end 2, size 30)` over the text "a b", the whitespace at index 1 is
skipped without advancing the run cursor, so the token for index 2 gets
font size 20 although the covering run's font size is 30. -/
theorem c5_counterexample :
    tokenize ['a', ' ', 'b'] [⟨0, 0, 1, 1⟩, ⟨1, 0, 2, 1⟩, ⟨2, 0, 3, 1⟩]
        [⟨0, 10⟩, ⟨1, 20⟩, ⟨2, 30⟩] =
      .ok [⟨0, 0, 1, 1, 'a', 10⟩, ⟨2, 0, 3, 1, 'b', 20⟩] ∧
    specCoveringFontSize [⟨0, 10⟩, ⟨1, 20⟩, ⟨2, 30⟩] 2 = some 30 ∧ (20 : ℚ) ≠ 30 :=
  ⟨rfl, rfl, by decide⟩

unseal Rat.sub Rat.add Rat.mul Rat.inv in
/-- C6 counterexample: on the Scenario E input the emitted text is "x2",
not "x[2]" — with only two tokens on the line, the median baseline is the
midpoint of the two centers, so each token's offset is 1.5, below the
2-unit threshold, and no bracket opens. -/
theorem c6_counterexample :
    write_line true scenarioE = "x2" ∧ write_line true scenarioE ≠ "x[2]" := by
  decide

unseal Rat.sub Rat.add Rat.mul Rat.inv in
/-- C6 (amended): a bracket run opens at a token exactly when no run is
open, the token's offset from the line's median baseline lies strictly
between 2 units and 0.7 × its font size, and its font size is smaller
than the line's median font size; on the Scenario E input the two-token
line's median baseline is the midpoint of the two centers, each offset is
1.5, and the emitted text is "x2". -/
theorem c6_special_script :
    (∀ (token : Token) (ldy lfs : ℚ),
      enter_special_script true token ldy lfs = true ↔
        (ldy ≠ 0 ∧ 2 < ldy ∧ ldy < token.font_size * (7/10) ∧ token.font_size < lfs)) ∧
    write_line true scenarioE = "x2" := by
  refine ⟨fun token ldy lfs => ?_, by decide⟩
  simp only [enter_special_script, Bool.and_eq_true, decide_eq_true_eq, true_and]
  rw [mul_lt_mul_right (by norm_num : (0:ℚ) < 7/10)]
  tauto

unseal Rat.sub Rat.add Rat.mul Rat.inv in
/-- C7: the emitter inserts one space before a token exactly when the
previous token's right edge lies strictly left of the current token's
left edge and the gap exceeds 0.1 × the current font size; Scenario B
(gap 0) emits "PD" without a space and Scenario C (3-unit gap at font
size 10) emits "PDF Parser" with one space. -/
theorem c7_space_insertion :
    (∀ prev token : Token, space_sep prev token = " " ↔
        (prev.x2 < token.x1 ∧ token.x1 - prev.x2 > token.font_size * (1/10))) ∧
    (∀ prev token : Token, space_sep prev token = " " ∨ space_sep prev token = "") ∧
    write_line true scenarioB = "PD" ∧ write_line true scenarioC = "PDF Parser" := by
  refine ⟨fun prev token => ?_, fun prev token => ?_, by decide, by decide⟩
  · unfold space_sep
    split
    · next h => exact iff_of_true rfl h
    · next h =>
      constructor
      · intro habs; exact absurd habs (by decide)
      · intro hc; exact absurd hc h
  · unfold space_sep
    split
    · exact Or.inl rfl
    · exact Or.inr rfl

/-- The token loop itself never raises the mismatch error: that error
comes only from the explicit length guard in the constructor. -/
theorem tokLoop_ne_mismatch (text : List Char) (attrs : List TextAttr) :
    ∀ (layout : List Rectangle) (index attr_index : ℕ),
      tokLoop text attrs index attr_index layout ≠ .error .mismatch := by
  intro layout
  induction layout with
  | nil => intro i c h; simp [tokLoop] at h
  | cons rect rest ih =>
    intro i c h
    rw [tokLoop] at h
    by_cases hw : isWs (text.getD i ' ') = true
    · rw [if_pos hw] at h; exact ih _ _ h
    · rw [if_neg hw] at h
      by_cases hc : c < attrs.length
      · rw [if_pos hc] at h
        by_cases hai : advanceCursor attrs i c < attrs.length
        · rw [if_pos hai] at h
          cases hr : tokLoop text attrs (i + 1) (advanceCursor attrs i c) rest with
          | ok ts => rw [hr] at h; simp [Except.map] at h
          | error e =>
            rw [hr] at h
            simp only [Except.map, Except.error.injEq] at h
            exact ih _ _ (hr.trans (by rw [h]))
        · rw [if_neg hai] at h; simp at h
      · rw [if_neg hc] at h; simp at h

/-- C4 (amended): the constructor raises the layout-mismatch error exactly
when the text string is shorter than the rectangle array (the opposite
direction of the original claim); whenever the text is at least as long
as the layout, this error is not raised. -/
theorem c4_mismatch_iff (text : List Char) (layout : List Rectangle) (attrs : List TextAttr) :
    tokenize text layout attrs = .error .mismatch ↔ text.length < layout.length := by
  unfold tokenize
  split
  · next h => simp [h]
  · next h =>
    constructor
    · intro hx; exact absurd hx (tokLoop_ne_mismatch text attrs layout 0 0)
    · intro hlt; exact absurd hlt h

/-- The inner overlap sweep never lengthens the remainder list. -/
theorem overlapInner_snd_length (b1 : TokenBlock) (rest : List TokenBlock) :
    (overlapInner b1 rest).2.length ≤ rest.length := by
  induction rest generalizing b1 with
  | nil => simp [overlapInner]
  | cons b2 rs ih =>
    rw [overlapInner]
    split
    · exact (ih _).trans (Nat.le_succ _)
    · simpa using ih b1

/-- The overlap pass never increases the number of blocks. -/
theorem overlapOuter_length (fuel : ℕ) : ∀ l : List TokenBlock,
    (overlapOuter fuel l).length ≤ l.length := by
  induction fuel with
  | zero => intro l; simp [overlapOuter]
  | succ f ih =>
    intro l
    cases l with
    | nil => simp [overlapOuter]
    | cons b rest =>
      rw [overlapOuter]
      simpa using Nat.succ_le_succ ((ih _).trans (overlapInner_snd_length b rest))

/-- If the inner sweep deleted nothing, it merged nothing: the head block
and the rest come back unchanged, and the head overlaps none of them. -/
theorem overlapInner_eq_of_length (rest : List TokenBlock) : ∀ b1 : TokenBlock,
    (overlapInner b1 rest).2.length = rest.length →
    overlapInner b1 rest = (b1, rest) ∧ ∀ b2 ∈ rest, b1.overlaps b2 = false := by
  induction rest with
  | nil => intro b1 _; exact ⟨by simp [overlapInner], by simp⟩
  | cons b2 rs ih =>
    intro b1 h
    rw [overlapInner] at h ⊢
    by_cases ho : b1.overlaps b2 = true
    · rw [if_pos ho] at h
      have hle := overlapInner_snd_length (b1.merge b2) rs
      simp only [List.length_cons] at h
      omega
    · rw [if_neg ho] at h ⊢
      simp only [List.length_cons] at h
      have hlen : (overlapInner b1 rs).2.length = rs.length := by
        simpa using h
      obtain ⟨heq, hall⟩ := ih b1 hlen
      refine ⟨by rw [heq], ?_⟩
      intro x hx
      rcases List.mem_cons.mp hx with hx | hx
      · subst hx; exact Bool.not_eq_true _ ▸ Bool.of_not_eq_true ho
      · exact hall x hx

/-- C1 (amended): if the overlap-merge pass performs no merges — it
returns its input unchanged — then no two blocks of that input overlap.
(The original claim's fixed-point property fails in general: see the
counterexample, where a merge grows a block over one that the sweep had
already passed.) -/
theorem c1_overlap_fixpoint (blocks : List TokenBlock)
    (h : pass_overlap blocks = blocks) :
    blocks.Pairwise (fun a b => a.overlaps b = false) := by
  suffices key : ∀ (fuel : ℕ) (l : List TokenBlock), l.length ≤ fuel →
      overlapOuter fuel l = l → l.Pairwise (fun a b => a.overlaps b = false) from
    key blocks.length blocks le_rfl h
  intro fuel
  induction fuel with
  | zero =>
    intro l hl _
    rw [Nat.le_zero, List.length_eq_zero] at hl
    subst hl
    exact List.Pairwise.nil
  | succ f ih =>
    intro l hl heq
    cases l with
    | nil => exact List.Pairwise.nil
    | cons b rest =>
      rw [overlapOuter] at heq
      simp only [List.cons.injEq] at heq
      obtain ⟨h1, h2⟩ := heq
      have hlen : (overlapInner b rest).2.length = rest.length := by
        have hle := overlapInner_snd_length b rest
        have hout := overlapOuter_length f (overlapInner b rest).2
        rw [h2] at hout
        omega
      obtain ⟨hinner, hall⟩ := overlapInner_eq_of_length rest b hlen
      rw [hinner] at h2
      exact List.Pairwise.cons hall (ih rest (by simpa using hl) h2)

unseal Rat.sub Rat.add Rat.mul Rat.inv in
/-- C1 witness: on a concrete fixed point of the overlap pass the amended
theorem yields pairwise non-overlap. -/
theorem c1_witness :
    pass_overlap apartBlocks = apartBlocks ∧
    apartBlocks.Pairwise (fun a b => a.overlaps b = false) :=
  ⟨by decide, c1_overlap_fixpoint apartBlocks (by decide)⟩

/-- Balance checking distributes over concatenation. -/
theorem balDepth_append (a b : List Char) : ∀ d,
    balDepth (a ++ b) d = (balDepth a d).bind (balDepth b) := by
  induction a with
  | nil => intro d; simp [balDepth]
  | cons c cs ih =>
    intro d
    simp only [List.cons_append, balDepth]
    by_cases h1 : c = '['
    · rw [if_pos h1, if_pos h1]; exact ih (d + 1)
    · rw [if_neg h1, if_neg h1]
      by_cases h2 : c = ']'
      · rw [if_pos h2, if_pos h2]
        cases d with
        | zero => simp
        | succ d' => exact ih d'
      · rw [if_neg h2, if_neg h2]; exact ih d

/-- A single non-bracket character leaves the depth unchanged. -/
theorem balDepth_single (c : Char) (h1 : c ≠ '[') (h2 : c ≠ ']') (d : ℕ) :
    balDepth [c] d = some d := by
  simp [balDepth, h1, h2]

/-- The space separator never touches the bracket depth. -/
theorem balDepth_space_sep (prev token : Token) (d : ℕ) :
    balDepth (space_sep prev token).data d = some d := by
  unfold space_sep
  split
  · simp [balDepth]
  · simp [balDepth]

/-- One emission step preserves the balance invariant: the accumulated
string balances to depth 0 with exactly one bracket open while
`in_specialchars` is set. -/
theorem writeToken_bal (escape : Bool) (lh lfs : ℚ) (st : String × Bool × Token)
    (token : Token) (hb : token.char ≠ '[' ∧ token.char ≠ ']')
    (hst : balDepth st.1.data 0 = some (if st.2.1 then 1 else 0)) :
    balDepth (writeToken escape lh lfs st token).1.data 0 =
      some (if (writeToken escape lh lfs st token).2.1 then 1 else 0) := by
  unfold writeToken
  dsimp only
  by_cases hE : (st.2.1 && exit_special_script escape st.2.2 token
      |token.center.y - lh|) = true
  · rw [if_pos hE]
    have hflag : st.2.1 = true := (Bool.and_eq_true .. ▸ hE).1
    rw [hflag] at hst
    by_cases hN : (!false && enter_special_script escape token
        |token.center.y - lh| lfs) = true
    · rw [if_pos hN]
      simp only [String.data_append, List.append_assoc, balDepth_append, hst,
        Option.bind_some]
      have : (Char.toString token.char).data = [token.char] := rfl
      simp [balDepth, balDepth_space_sep, this, hb.1, hb.2]
    · rw [if_neg hN]
      simp only [String.data_append, List.append_assoc, balDepth_append, hst,
        Option.bind_some]
      have : (Char.toString token.char).data = [token.char] := rfl
      simp [balDepth, balDepth_space_sep, this, hb.1, hb.2]
  · rw [if_neg hE]
    by_cases hN : (!st.2.1 && enter_special_script escape token
        |token.center.y - lh| lfs) = true
    · rw [if_pos hN]
      have hflag : st.2.1 = false := by
        have := (Bool.and_eq_true .. ▸ hN).1
        simpa using this
      rw [hflag] at hst
      simp only [String.data_append, List.append_assoc, balDepth_append, hst,
        Option.bind_some]
      have : (Char.toString token.char).data = [token.char] := rfl
      simp [balDepth, balDepth_space_sep, this, hb.1, hb.2]
    · rw [if_neg hN]
      simp only [String.data_append, List.append_assoc, balDepth_append, hst,
        Option.bind_some]
      have : (Char.toString token.char).data = [token.char] := rfl
      by_cases hflag : st.2.1 = true <;>
        simp [hflag, balDepth_space_sep, this, hb.1, hb.2] at hst ⊢ <;>
        simp [balDepth_append, hst, balDepth_space_sep, this, balDepth, hb.1, hb.2]

/-- The emission fold preserves the balance invariant. -/
theorem foldl_writeToken_bal (escape : Bool) (lh lfs : ℚ) :
    ∀ (l : List Token) (st : String × Bool × Token),
      (∀ t ∈ l, t.char ≠ '[' ∧ t.char ≠ ']') →
      balDepth st.1.data 0 = some (if st.2.1 then 1 else 0) →
      balDepth (l.foldl (writeToken escape lh lfs) st).1.data 0 =
        some (if (l.foldl (writeToken escape lh lfs) st).2.1 then 1 else 0) := by
  intro l
  induction l with
  | nil => intro st _ hst; exact hst
  | cons t rest ih =>
    intro st hl hst
    simp only [List.foldl_cons]
    exact ih _ (fun x hx => hl x (List.mem_cons_of_mem _ hx))
      (writeToken_bal escape lh lfs st t (hl t (List.mem_cons_self _ _)) hst)

/-- C8: for any token list whose characters are not themselves square
brackets, the brackets the emitter inserts as sub/superscript markers
leave `write_line`'s output balanced — every opened run is closed,
including the forced closure at line end. -/
theorem c8_bracket_balance (escape : Bool) (tokens : List Token)
    (h : ∀ t ∈ tokens, t.char ≠ '[' ∧ t.char ≠ ']') :
    balancedB (write_line escape tokens) = true := by
  unfold write_line
  cases tokens with
  | nil => rfl
  | cons t0 rest =>
    dsimp only
    set lh := npMedian ((t0 :: rest).map (fun t => t.center.y)) with hlh
    set lfs := npMedian ((t0 :: rest).map (fun t => t.font_size)) with hlfs
    have key := foldl_writeToken_bal escape lh lfs (t0 :: rest) ("", false, t0) h (by rfl)
    set st := (t0 :: rest).foldl (writeToken escape lh lfs) ("", false, t0) with hstdef
    unfold balancedB
    by_cases hf : st.2.1 = true
    · rw [if_pos hf]
      rw [hf] at key
      simp only [if_pos rfl] at key
      simp [String.data_append, balDepth_append, key, balDepth]
    · rw [if_neg hf]
      rw [Bool.not_eq_true] at hf
      rw [hf] at key
      simp only [Bool.false_eq_true, if_false] at key
      simp [key]

/-- Filtering by a stronger predicate keeps at most as many elements. -/
theorem length_filter_mono {α} (p q : α → Bool) (l : List α)
    (himp : ∀ x, q x = true → p x = true) :
    (l.filter q).length ≤ (l.filter p).length := by
  induction l with
  | nil => simp
  | cons a as ih =>
    simp only [List.filter_cons]
    cases hq : q a
    · cases hp : p a
      · simpa using ih
      · simpa using ih.trans (Nat.le_succ _)
    · rw [himp a hq]
      simpa using ih

/-- Filtering by a strictly stronger predicate (witnessed by an element
satisfying only the weaker one) keeps strictly fewer elements. -/
theorem length_filter_lt {α} (p q : α → Bool) (l : List α)
    (himp : ∀ x, q x = true → p x = true)
    (y : α) (hy : y ∈ l) (hpy : p y = true) (hqy : q y = false) :
    (l.filter q).length < (l.filter p).length := by
  induction l with
  | nil => cases hy
  | cons a as ih =>
    rcases List.mem_cons.mp hy with rfl | hy2
    · simp only [List.filter_cons, hpy, hqy]
      simpa using Nat.lt_succ_of_le (length_filter_mono p q as himp)
    · simp only [List.filter_cons]
      cases hq : q a
      · cases hp : p a
        · simpa using ih hy2
        · simpa using Nat.lt_succ_of_lt (ih hy2)
      · rw [himp a hq]
        simpa using Nat.succ_lt_succ (ih hy2)

/-- Advancing the frontier to a token strictly ahead in rounded center
abscissa strictly decreases the termination measure of the walk. -/
theorem countAhead_lt (toks : List Token) (tok tok2 : Token)
    (h2 : tok2 ∈ toks) (hgt : round4 tok.center.x < round4 tok2.center.x) :
    countAhead toks tok2 < countAhead toks tok := by
  unfold countAhead
  apply length_filter_lt _ _ toks _ tok2 h2
  · simpa using hgt
  · simp
  · intro x hx
    simp only [decide_eq_true_eq] at hx ⊢
    exact lt_trans hgt hx

/-- The neighbor walk stabilizes once the fuel exceeds `countAhead`: each
iteration either exhausts the neighbor list or advances the frontier to a
token strictly ahead in rounded center abscissa, so the loop ends within
`countAhead` advances and any two sufficient fuels agree. -/
theorem pnAux_stable (query : QueryFn) (toks : List Token) (start : Token) :
    ∀ (N : ℕ) (tok : Token) (bIdx : ℕ) (blocks : List TokenBlock)
      (neighbors : List ℕ) (f1 f2 : ℕ), countAhead toks tok ≤ N →
      (∀ n ∈ neighbors, n < toks.length) →
      countAhead toks tok < f1 → countAhead toks tok < f2 →
      pnAux query toks start f1 tok bIdx blocks neighbors =
        pnAux query toks start f2 tok bIdx blocks neighbors := by
  intro N
  induction N with
  | zero =>
    intro tok bIdx blocks neighbors f1 f2 hN hn h1 h2
    obtain ⟨a1, rfl⟩ : ∃ k, f1 = k + 1 := ⟨f1 - 1, by omega⟩
    obtain ⟨a2, rfl⟩ : ∃ k, f2 = k + 1 := ⟨f2 - 1, by omega⟩
    rw [pnAux, pnAux]
    cases hfind : neighbors.find?
        (fun i => decide (round4 tok.center.x < round4 (toks.getD i dTok).center.x)) with
    | none => simp only [hfind]
    | some ti =>
      have hti : ti ∈ neighbors := List.mem_of_find?_eq_some hfind
      have hgt : round4 tok.center.x < round4 (toks.getD ti dTok).center.x := by
        simpa using List.find?_some hfind
      have hmem : toks.getD ti dTok ∈ toks := by
        rw [List.getD_eq_getElem?_getD]
        rw [List.getElem?_eq_getElem (hn ti hti)]
        exact List.getElem_mem _
      have := countAhead_lt toks tok _ hmem hgt
      omega
  | succ N ih =>
    intro tok bIdx blocks neighbors f1 f2 hN hn h1 h2
    obtain ⟨a1, rfl⟩ : ∃ k, f1 = k + 1 := ⟨f1 - 1, by omega⟩
    obtain ⟨a2, rfl⟩ : ∃ k, f2 = k + 1 := ⟨f2 - 1, by omega⟩
    rw [pnAux, pnAux]
    by_cases hemp : neighbors.isEmpty = true
    · rw [if_pos hemp, if_pos hemp]
    · rw [if_neg hemp, if_neg hemp]
      cases hfind : neighbors.find?
          (fun i => decide (round4 tok.center.x < round4 (toks.getD i dTok).center.x)) with
      | none => simp only [hfind]
      | some ti =>
        simp only [hfind]
        have hti : ti ∈ neighbors := List.mem_of_find?_eq_some hfind
        have hgt : round4 tok.center.x < round4 (toks.getD ti dTok).center.x := by
          simpa using List.find?_some hfind
        have hmem : toks.getD ti dTok ∈ toks := by
          rw [List.getD_eq_getElem?_getD]
          rw [List.getElem?_eq_getElem (hn ti hti)]
          exact List.getElem_mem _
        have hlt := countAhead_lt toks tok _ hmem hgt
        apply ih
        · omega
        · intro n hnn
          have := (List.mem_filter.mp hnn).2
          simp only [decide_eq_true_eq] at this
          exact this.1
        · omega
        · omega

/-- C10: the forward neighbor-extension walk terminates for every finite
token set — with any fuel beyond its measure (the number of tokens
strictly ahead of the frontier in rounded center abscissa) the walk
computes the same final block state, since every iteration either
exhausts the neighbor list or strictly advances the frontier. -/
theorem c10_walk_terminates (query : QueryFn) (toks : List Token) (start tok : Token)
    (bIdx : ℕ) (blocks : List TokenBlock) (neighbors : List ℕ) (fuel : ℕ)
    (hn : ∀ n ∈ neighbors, n < toks.length)
    (hf : countAhead toks tok < fuel) :
    pnAux query toks start fuel tok bIdx blocks neighbors =
      pnAux query toks start (countAhead toks tok + 1) tok bIdx blocks neighbors :=
  pnAux_stable query toks start (countAhead toks tok) tok bIdx blocks neighbors fuel
    (countAhead toks tok + 1) le_rfl hn hf (Nat.lt_succ_self _)

unseal Rat.sub Rat.add Rat.mul Rat.inv in
/-- C10 witness: the walk on the Scenario E tokens computes the same
state with fuel 5 as with its measure bound. -/
theorem c10_witness :
    (∀ n ∈ [0, 1], n < scenarioE.length) ∧
    countAhead scenarioE (scenarioE.getD 0 dTok) < 5 ∧
    pnAux (knnQuery scenarioE) scenarioE (scenarioE.getD 0 dTok) 5
        (scenarioE.getD 0 dTok) 0 [TokenBlock.from_token 0 (scenarioE.getD 0 dTok)] [0, 1] =
      pnAux (knnQuery scenarioE) scenarioE (scenarioE.getD 0 dTok)
        (countAhead scenarioE (scenarioE.getD 0 dTok) + 1)
        (scenarioE.getD 0 dTok) 0 [TokenBlock.from_token 0 (scenarioE.getD 0 dTok)] [0, 1] :=
  ⟨by decide, by decide,
   c10_walk_terminates _ _ _ _ _ _ _ _ (by decide) (by decide)⟩

/-- C8 witness: a concrete line with a genuine superscript ("ab[s]")
balances. -/
theorem c8_witness :
    (∀ t ∈ scriptLine, t.char ≠ '[' ∧ t.char ≠ ']') ∧
    balancedB (write_line true scriptLine) = true :=
  ⟨by decide, c8_bracket_balance true scriptLine (by decide)⟩

/-- A merge-and-delete step never increases the number of blocks. -/
theorem mergeDelete_length_le (bs : List TokenBlock) (i j : ℕ) :
    (mergeDelete bs i j).length ≤ bs.length := by
  unfold mergeDelete
  split
  · calc ((bs.set i ((bs.getD i dBlk).merge (bs.getD j dBlk))).eraseIdx j).length
        ≤ (bs.set i ((bs.getD i dBlk).merge (bs.getD j dBlk))).length :=
          (List.eraseIdx_sublist _ _).length_le
      _ = bs.length := List.length_set _ _ _
  · exact le_rfl

/-- Folding merge-and-delete steps never increases the block count. -/
theorem foldl_mergeDelete_length_le (ps : List (ℕ × ℕ)) : ∀ bs : List TokenBlock,
    (ps.foldl (fun s p => mergeDelete s p.1 p.2) bs).length ≤ bs.length := by
  induction ps with
  | nil => intro bs; exact le_rfl
  | cons p ps ih => intro bs; exact (ih _).trans (mergeDelete_length_le bs p.1 p.2)

/-- Committing a small-line merge chain never increases the block count. -/
theorem commitChain_length_le (bs : List TokenBlock) (bi : List ℕ) :
    (commitChain bs bi).length ≤ bs.length :=
  foldl_mergeDelete_length_le _ bs

/-- The small-line inner loop never increases the block count. -/
theorem slInner_length_le (toks : List Token) : ∀ (fuel i : ℕ) (b1fs : ℚ) (j : ℕ)
    (bs : List TokenBlock), (slInner toks fuel i b1fs j bs).length ≤ bs.length := by
  intro fuel
  induction fuel with
  | zero => intro i b1fs j bs; exact le_rfl
  | succ f ih =>
    intro i b1fs j bs
    rw [slInner]
    dsimp only
    split
    · split
      · exact ih _ _ _ _
      · split
        · split
          · exact ih _ _ _ _
          · split
            · split
              · split
                · exact (ih _ _ _ _).trans (commitChain_length_le _ _)
                · exact ih _ _ _ _
              · exact ih _ _ _ _
            · exact ih _ _ _ _
        · exact ih _ _ _ _
    · exact le_rfl

/-- The small-line outer loop never increases the block count. -/
theorem slOuter_length_le (toks : List Token) : ∀ (fuel i : ℕ) (bs : List TokenBlock),
    (slOuter toks fuel i bs).length ≤ bs.length := by
  intro fuel
  induction fuel with
  | zero => intro i bs; exact le_rfl
  | succ f ih =>
    intro i bs
    rw [slOuter]
    dsimp only
    split
    · split
      · exact ih _ _
      · exact (ih _ _).trans (slInner_length_le toks _ _ _ _ _)
    · exact le_rfl

/-- The paragraph inner loop never increases the block count. -/
theorem paraInner_length_le (toks : List Token) : ∀ (fuel i j : ℕ)
    (bs : List TokenBlock), (paraInner toks fuel i j bs).length ≤ bs.length := by
  intro fuel
  induction fuel with
  | zero => intro i j bs; exact le_rfl
  | succ f ih =>
    intro i j bs
    rw [paraInner]
    dsimp only
    split
    · split
      · exact (ih _ _ _).trans (mergeDelete_length_le _ _ _)
      · exact ih _ _ _
    · exact le_rfl

/-- The paragraph outer loop never increases the block count. -/
theorem paraOuter_length_le (toks : List Token) : ∀ (fuel i : ℕ)
    (bs : List TokenBlock), (paraOuter toks fuel i bs).length ≤ bs.length := by
  intro fuel
  induction fuel with
  | zero => intro i bs; exact le_rfl
  | succ f ih =>
    intro i bs
    rw [paraOuter]
    split
    · exact (ih _ _).trans (paraInner_length_le toks _ _ _ _)
    · exact le_rfl

/-- The column-forward loop never increases the block count. -/
theorem colLoop_length_le (toks : List Token) : ∀ (fuel i : ℕ)
    (bs : List TokenBlock), (colLoop toks fuel i bs).length ≤ bs.length := by
  intro fuel
  induction fuel with
  | zero => intro i bs; exact le_rfl
  | succ f ih =>
    intro i bs
    rw [colLoop]
    dsimp only
    split
    · split
      · split
        · split
          · exact (ih _ _).trans (mergeDelete_length_le _ _ _)
          · exact ih _ _
        · exact ih _ _
      · exact ih _ _
    · exact le_rfl

/-- The big-column loop never increases the block count. -/
theorem bigLoop_length_le (toks : List Token) : ∀ (fuel i : ℕ)
    (bs : List TokenBlock), (bigLoop toks fuel i bs).length ≤ bs.length := by
  intro fuel
  induction fuel with
  | zero => intro i bs; exact le_rfl
  | succ f ih =>
    intro i bs
    rw [bigLoop]
    dsimp only
    split
    · split
      · exact ih _ _
      · split
        · split
          · exact ih _ _
          · split
            · exact (ih _ _).trans (mergeDelete_length_le _ _ _)
            · exact ih _ _
        · exact ih _ _
    · exact le_rfl

/-- The horizontal pass's column-candidate loop never increases the block
count. -/
theorem horizK_length_le (toks : List Token) (i j : ℕ) : ∀ (fuel k : ℕ)
    (bs : List TokenBlock), (horizK toks i j fuel k bs).length ≤ bs.length := by
  intro fuel
  induction fuel with
  | zero => intro k bs; exact le_rfl
  | succ f ih =>
    intro k bs
    rw [horizK]
    dsimp only
    split
    · split
      · exact (ih _ _).trans (mergeDelete_length_le _ _ _)
      · exact ih _ _
    · exact le_rfl

/-- The horizontal pass's inner loop never increases the block count. -/
theorem horizJ_length_le (toks : List Token) (i : ℕ) : ∀ (fuel j : ℕ) (merged : Bool)
    (bs : List TokenBlock), (horizJ toks i fuel j merged bs).1.length ≤ bs.length := by
  intro fuel
  induction fuel with
  | zero => intro j merged bs; exact le_rfl
  | succ f ih =>
    intro j merged bs
    rw [horizJ]
    dsimp only
    split
    · split
      · split
        · exact (ih _ _ _).trans ((mergeDelete_length_le _ _ _).trans
            (horizK_length_le toks i _ _ _ _))
        · exact (ih _ _ _).trans (horizK_length_le toks i _ _ _ _)
      · exact ih _ _ _
    · exact le_rfl

/-- The horizontal pass's outer loop never increases the block count. -/
theorem horizI_length_le (toks : List Token) : ∀ (fuel i : ℕ)
    (bs : List TokenBlock), (horizI toks fuel i bs).length ≤ bs.length := by
  intro fuel
  induction fuel with
  | zero => intro i bs; exact le_rfl
  | succ f ih =>
    intro i bs
    rw [horizI]
    dsimp only
    split
    · exact (ih _ _).trans (horizJ_length_le toks _ _ _ _ _)
    · exact le_rfl

/-- C9 (amended): the six-pass pipeline is not idempotent — a second
application can perform further merges (see the counterexample) — but it
can only merge: the number of blocks never increases under an
application of the six passes. -/
theorem c9_block_count (toks : List Token) (blocks : List TokenBlock) :
    (sixPasses toks blocks).length ≤ blocks.length := by
  unfold sixPasses pass_horizontal pass_big pass_colfwd pass_paragraph
    pass_smallline pass_overlap
  exact (horizI_length_le toks _ _ _).trans ((bigLoop_length_le toks _ _ _).trans
    ((colLoop_length_le toks _ _ _).trans ((paraOuter_length_le toks _ _ _).trans
    ((slOuter_length_le toks _ _ _).trans (overlapOuter_length _ _)))))

/-- Setting past the end of a list is a no-op (Python would raise; the
embedding's guards keep all real accesses in range). -/
theorem set_oob {α} (a : α) : ∀ (l : List α) (i : ℕ), l.length ≤ i → l.set i a = l
  | [], _, _ => rfl
  | _ :: _, 0, h => by simp at h
  | x :: xs, i + 1, h => by
    simp only [List.set_cons_succ]
    rw [set_oob a xs i (by simpa using h)]

/-- A list is a permutation of its `k`-th element consed onto the list
with that element removed. -/
theorem perm_getD_cons_eraseIdx {α} (d : α) : ∀ (l : List α) (k : ℕ), k < l.length →
    l.Perm (l.getD k d :: l.eraseIdx k)
  | x :: xs, 0, _ => by simp
  | x :: xs, k + 1, h => by
    have ih := perm_getD_cons_eraseIdx d xs k (by simpa using h)
    simp only [List.getD_cons_succ, List.eraseIdx_cons_succ]
    exact (ih.cons x).trans (List.Perm.swap _ _ _)
  | [], k, h => by simp at h

/-- Overwriting the `k`-th element is, up to permutation, removing it and
consing the new value. -/
theorem perm_set_cons_eraseIdx {α} (b : α) : ∀ (l : List α) (k : ℕ), k < l.length →
    (l.set k b).Perm (b :: l.eraseIdx k)
  | x :: xs, 0, _ => by simp
  | x :: xs, k + 1, h => by
    have ih := perm_set_cons_eraseIdx b xs k (by simpa using h)
    simp only [List.set_cons_succ, List.eraseIdx_cons_succ]
    exact (ih.cons x).trans (List.Perm.swap _ _ _)
  | [], k, h => by simp at h

/-- `flatTokens` over a cons. -/
theorem flatTokens_cons (b : TokenBlock) (bs : List TokenBlock) :
    flatTokens (b :: bs) = b.tokens ++ flatTokens bs := by
  simp [flatTokens]

/-- `flatTokens` over an append. -/
theorem flatTokens_append (xs ys : List TokenBlock) :
    flatTokens (xs ++ ys) = flatTokens xs ++ flatTokens ys := by
  simp [flatTokens]

/-- Permuting the blocks permutes the flattened token indices. -/
theorem flatTokens_perm {xs ys : List TokenBlock} (h : xs.Perm ys) :
    (flatTokens xs).Perm (flatTokens ys) :=
  (h.map TokenBlock.tokens).flatten

/-- An index occurs in the flattened tokens iff some block owns it. -/
theorem mem_flatTokens (bs : List TokenBlock) (i : ℕ) :
    i ∈ flatTokens bs ↔ ∃ b ∈ bs, i ∈ b.tokens := by
  simp [flatTokens, List.mem_flatten]

/-- `getD` at an in-range index is a member. -/
theorem getD_mem {α} (l : List α) (i : ℕ) (d : α) (h : i < l.length) :
    l.getD i d ∈ l := by
  rw [List.getD_eq_getElem?_getD, List.getElem?_eq_getElem h]
  exact List.getElem_mem _

/-- Under global duplicate-freedom, two distinct blocks own disjoint token
sets. -/
theorem tokens_disjoint_of_nodup : ∀ (bs : List TokenBlock) (i j : ℕ),
    (flatTokens bs).Nodup → i < bs.length → j < bs.length → i ≠ j →
    ∀ x ∈ (bs.getD j dBlk).tokens, x ∉ (bs.getD i dBlk).tokens
  | [], i, _, _, hi, _, _ => by simp at hi
  | b :: rest, 0, 0, _, _, _, hij => absurd rfl hij
  | b :: rest, 0, j + 1, hd, _, hj, _ => by
    intro x hxj hxi
    rw [flatTokens_cons] at hd
    have hdisj := List.disjoint_of_nodup_append hd
    have hxr : x ∈ flatTokens rest := (mem_flatTokens _ _).mpr
      ⟨rest.getD j dBlk, getD_mem rest j dBlk (by simpa using hj), by simpa using hxj⟩
    exact hdisj (by simpa using hxi) hxr
  | b :: rest, i + 1, 0, hd, hi, _, _ => by
    intro x hxj hxi
    rw [flatTokens_cons] at hd
    have hdisj := List.disjoint_of_nodup_append hd
    have hxr : x ∈ flatTokens rest := (mem_flatTokens _ _).mpr
      ⟨rest.getD i dBlk, getD_mem rest i dBlk (by simpa using hi), by simpa using hxi⟩
    exact hdisj (by simpa using hxj) hxr
  | b :: rest, i + 1, j + 1, hd, hi, hj, hij => by
    rw [flatTokens_cons] at hd
    have hrest := (List.nodup_append.mp hd).2.1
    simpa using tokens_disjoint_of_nodup rest i j hrest (by simpa using hi)
      (by simpa using hj) (by simpa using hij)

/-- Merging disjoint blocks concatenates their token lists. -/
theorem merge_tokens_of_disjoint (b o : TokenBlock)
    (h : ∀ x ∈ o.tokens, x ∉ b.tokens) :
    (b.merge o).tokens = b.tokens ++ o.tokens := by
  unfold TokenBlock.merge
  simp only
  congr 1
  apply List.filter_eq_self.mpr
  intro x hx
  simpa using h x hx

/-- The guarded body of `mergeDelete` permutes the flattened token list:
position `i` absorbs position `j`'s tokens and position `j` disappears. -/
theorem flat_set_merge_eraseIdx_perm : ∀ (bs : List TokenBlock) (i j : ℕ),
    (flatTokens bs).Nodup → i < bs.length → j < bs.length → i ≠ j →
    (flatTokens ((bs.set i ((bs.getD i dBlk).merge (bs.getD j dBlk))).eraseIdx j)).Perm
      (flatTokens bs)
  | [], i, _, _, hi, _, _ => by simp at hi
  | b :: rest, 0, 0, _, _, _, hij => absurd rfl hij
  | b :: rest, 0, j + 1, hd, hi, hj, hij => by
    have hj' : j < rest.length := by simpa using hj
    have hdisj := tokens_disjoint_of_nodup (b :: rest) 0 (j + 1) hd (by simp)
      (by simpa using hj) (by simp)
    simp only [List.getD_cons_zero, List.getD_cons_succ] at hdisj ⊢
    simp only [List.set_cons_zero, List.eraseIdx_cons_succ, flatTokens_cons]
    rw [merge_tokens_of_disjoint _ _ hdisj]
    have hp : (flatTokens rest).Perm
        ((rest.getD j dBlk).tokens ++ flatTokens (rest.eraseIdx j)) := by
      have := flatTokens_perm (perm_getD_cons_eraseIdx dBlk rest j hj')
      simpa [flatTokens_cons] using this
    rw [List.append_assoc]
    exact List.Perm.append_left _ hp.symm
  | b :: rest, i + 1, 0, hd, hi, hj, hij => by
    have hi' : i < rest.length := by simpa using hi
    have hdisj := tokens_disjoint_of_nodup (b :: rest) (i + 1) 0 hd
      (by simpa using hi) (by simp) (by simp)
    simp only [List.getD_cons_zero, List.getD_cons_succ] at hdisj ⊢
    simp only [List.set_cons_succ, List.eraseIdx_cons_zero, List.tail_cons, flatTokens_cons]
    have hset := flatTokens_perm
      (perm_set_cons_eraseIdx ((rest.getD i dBlk).merge b) rest i hi')
    rw [flatTokens_cons, merge_tokens_of_disjoint _ _ hdisj] at hset
    refine hset.trans ?_
    have hp : (flatTokens rest).Perm
        ((rest.getD i dBlk).tokens ++ flatTokens (rest.eraseIdx i)) := by
      have := flatTokens_perm (perm_getD_cons_eraseIdx dBlk rest i hi')
      simpa [flatTokens_cons] using this
    refine (List.Perm.append_right _ List.perm_append_comm).trans ?_
    rw [List.append_assoc]
    exact List.Perm.append_left _ hp.symm
  | b :: rest, i + 1, j + 1, hd, hi, hj, hij => by
    rw [flatTokens_cons] at hd
    have hrest := (List.nodup_append.mp hd).2.1
    have ih := flat_set_merge_eraseIdx_perm rest i j hrest (by simpa using hi)
      (by simpa using hj) (by simpa using hij)
    simp only [List.getD_cons_succ, List.set_cons_succ, List.eraseIdx_cons_succ,
      flatTokens_cons]
    exact List.Perm.append_left _ ih

/-- A merge-and-delete step permutes the flattened token list. -/
theorem flat_mergeDelete_perm (bs : List TokenBlock) (i j : ℕ)
    (hd : (flatTokens bs).Nodup) :
    (flatTokens (mergeDelete bs i j)).Perm (flatTokens bs) := by
  unfold mergeDelete
  split
  · next h => exact flat_set_merge_eraseIdx_perm bs i j hd h.1 h.2.1 h.2.2
  · exact .refl _

/-- Folding merge-and-delete steps permutes the flattened token list. -/
theorem foldl_mergeDelete_perm (ps : List (ℕ × ℕ)) : ∀ bs : List TokenBlock,
    (flatTokens bs).Nodup →
    (flatTokens (ps.foldl (fun s p => mergeDelete s p.1 p.2) bs)).Perm (flatTokens bs) := by
  induction ps with
  | nil => intro bs _; exact .refl _
  | cons p ps ih =>
    intro bs hd
    have h1 := flat_mergeDelete_perm bs p.1 p.2 hd
    exact (ih _ (h1.symm.nodup hd)).trans h1

/-- Committing a small-line merge chain permutes the flattened tokens. -/
theorem commitChain_perm (bs : List TokenBlock) (bi : List ℕ)
    (hd : (flatTokens bs).Nodup) :
    (flatTokens (commitChain bs bi)).Perm (flatTokens bs) :=
  foldl_mergeDelete_perm _ bs hd

/-- Shuffling a middle segment to the front, keeping the rest in place. -/
theorem perm_append_middle {α} (a c y : List α) :
    (a ++ (c ++ y)).Perm (c ++ (a ++ y)) := by
  rw [← List.append_assoc, ← List.append_assoc]
  exact List.Perm.append_right y List.perm_append_comm

/-- The inner overlap sweep permutes the head block's tokens together with
the remainder's tokens. -/
theorem overlapInner_perm : ∀ (rest : List TokenBlock) (b1 : TokenBlock),
    (b1.tokens ++ flatTokens rest).Nodup →
    ((overlapInner b1 rest).1.tokens ++ flatTokens (overlapInner b1 rest).2).Perm
      (b1.tokens ++ flatTokens rest)
  | [], b1, _ => by rw [overlapInner]
  | b2 :: rs, b1, hd => by
    rw [overlapInner]
    by_cases ho : b1.overlaps b2 = true
    · rw [if_pos ho]
      have hdisj : ∀ x ∈ b2.tokens, x ∉ b1.tokens := by
        intro x hx
        have hdj := List.disjoint_of_nodup_append hd
        intro hx1
        exact hdj hx1 (by rw [flatTokens_cons]; exact List.mem_append_left _ hx)
      have hmt := merge_tokens_of_disjoint b1 b2 hdisj
      have hd' : ((b1.merge b2).tokens ++ flatTokens rs).Nodup := by
        rw [hmt, List.append_assoc]
        rwa [flatTokens_cons] at hd
      have ih := overlapInner_perm rs (b1.merge b2) hd'
      refine ih.trans ?_
      rw [hmt, List.append_assoc, flatTokens_cons]
    · rw [if_neg ho]
      have hd1 : (b1.tokens ++ flatTokens rs).Nodup := by
        rw [flatTokens_cons] at hd
        refine List.Nodup.sublist ?_ hd
        exact (List.sublist_append_right _ _).append_left _
      have ih := overlapInner_perm rs b1 hd1
      simp only [flatTokens_cons]
      refine (perm_append_middle _ _ _).trans ?_
      refine (List.Perm.append_left _ ih).trans ?_
      exact (perm_append_middle _ _ _).trans (List.Perm.refl _)

/-- The overlap pass permutes the flattened token list. -/
theorem overlapOuter_perm : ∀ (fuel : ℕ) (l : List TokenBlock),
    (flatTokens l).Nodup →
    (flatTokens (overlapOuter fuel l)).Perm (flatTokens l) := by
  intro fuel
  induction fuel with
  | zero => intro l _; rw [overlapOuter]
  | succ f ih =>
    intro l hd
    cases l with
    | nil => rw [overlapOuter]
    | cons b rest =>
      rw [overlapOuter]
      have hin := overlapInner_perm rest b (by rwa [flatTokens_cons] at hd)
      have hd2 : ((overlapInner b rest).1.tokens ++
          flatTokens (overlapInner b rest).2).Nodup := by
        refine hin.symm.nodup ?_
        rwa [flatTokens_cons] at hd
      have hdrest : (flatTokens (overlapInner b rest).2).Nodup :=
        (List.nodup_append.mp hd2).2.1
      simp only [flatTokens_cons]
      refine (List.Perm.append_left _ (ih _ hdrest)).trans ?_
      exact hin.trans (List.Perm.refl _)

/-- The small-line inner loop permutes the flattened token list. -/
theorem slInner_perm (toks : List Token) : ∀ (fuel i : ℕ) (b1fs : ℚ) (j : ℕ)
    (bs : List TokenBlock), (flatTokens bs).Nodup →
    (flatTokens (slInner toks fuel i b1fs j bs)).Perm (flatTokens bs) := by
  intro fuel
  induction fuel with
  | zero => intro i b1fs j bs _; exact .refl _
  | succ f ih =>
    intro i b1fs j bs hd
    rw [slInner]
    dsimp only
    split
    · split
      · exact ih _ _ _ _ hd
      · split
        · split
          · exact ih _ _ _ _ hd
          · split
            · split
              · split
                · refine (ih _ _ _ _ ?_).trans (commitChain_perm bs _ hd)
                  exact (commitChain_perm bs _ hd).symm.nodup hd
                · exact ih _ _ _ _ hd
              · exact ih _ _ _ _ hd
            · exact ih _ _ _ _ hd
        · exact ih _ _ _ _ hd
    · exact .refl _

/-- The small-line outer loop permutes the flattened token list. -/
theorem slOuter_perm (toks : List Token) : ∀ (fuel i : ℕ) (bs : List TokenBlock),
    (flatTokens bs).Nodup →
    (flatTokens (slOuter toks fuel i bs)).Perm (flatTokens bs) := by
  intro fuel
  induction fuel with
  | zero => intro i bs _; exact .refl _
  | succ f ih =>
    intro i bs hd
    rw [slOuter]
    dsimp only
    split
    · split
      · exact ih _ _ hd
      · have hs := slInner_perm toks (2 * bs.length + 2) i
            (firstTokenFs toks (bs.getD i dBlk)) (i + 1) bs hd
        exact (ih _ _ (hs.symm.nodup hd)).trans hs
    · exact .refl _

/-- The paragraph inner loop permutes the flattened token list. -/
theorem paraInner_perm (toks : List Token) : ∀ (fuel i j : ℕ) (bs : List TokenBlock),
    (flatTokens bs).Nodup →
    (flatTokens (paraInner toks fuel i j bs)).Perm (flatTokens bs) := by
  intro fuel
  induction fuel with
  | zero => intro i j bs _; exact .refl _
  | succ f ih =>
    intro i j bs hd
    rw [paraInner]
    dsimp only
    split
    · split
      · have hm := flat_mergeDelete_perm bs i j hd
        exact (ih _ _ _ (hm.symm.nodup hd)).trans hm
      · exact ih _ _ _ hd
    · exact .refl _

/-- The paragraph outer loop permutes the flattened token list. -/
theorem paraOuter_perm (toks : List Token) : ∀ (fuel i : ℕ) (bs : List TokenBlock),
    (flatTokens bs).Nodup →
    (flatTokens (paraOuter toks fuel i bs)).Perm (flatTokens bs) := by
  intro fuel
  induction fuel with
  | zero => intro i bs _; exact .refl _
  | succ f ih =>
    intro i bs hd
    rw [paraOuter]
    split
    · have hp := paraInner_perm toks (bs.length + 1) i (i + 1) bs hd
      exact (ih _ _ (hp.symm.nodup hd)).trans hp
    · exact .refl _

/-- The column-forward loop permutes the flattened token list. -/
theorem colLoop_perm (toks : List Token) : ∀ (fuel i : ℕ) (bs : List TokenBlock),
    (flatTokens bs).Nodup →
    (flatTokens (colLoop toks fuel i bs)).Perm (flatTokens bs) := by
  intro fuel
  induction fuel with
  | zero => intro i bs _; exact .refl _
  | succ f ih =>
    intro i bs hd
    rw [colLoop]
    dsimp only
    split
    · split
      · split
        · split
          · refine (ih _ _ ?_).trans (flat_mergeDelete_perm bs i _ hd)
            exact (flat_mergeDelete_perm bs i _ hd).symm.nodup hd
          · exact ih _ _ hd
        · exact ih _ _ hd
      · exact ih _ _ hd
    · exact .refl _

/-- The big-column loop permutes the flattened token list. -/
theorem bigLoop_perm (toks : List Token) : ∀ (fuel i : ℕ) (bs : List TokenBlock),
    (flatTokens bs).Nodup →
    (flatTokens (bigLoop toks fuel i bs)).Perm (flatTokens bs) := by
  intro fuel
  induction fuel with
  | zero => intro i bs _; exact .refl _
  | succ f ih =>
    intro i bs hd
    rw [bigLoop]
    dsimp only
    split
    · split
      · exact ih _ _ hd
      · split
        · split
          · exact ih _ _ hd
          · split
            · refine (ih _ _ ?_).trans (flat_mergeDelete_perm bs i _ hd)
              exact (flat_mergeDelete_perm bs i _ hd).symm.nodup hd
            · exact ih _ _ hd
        · exact ih _ _ hd
    · exact .refl _

/-- The horizontal pass's column-candidate loop permutes the flattened
token list. -/
theorem horizK_perm (toks : List Token) (i j : ℕ) : ∀ (fuel k : ℕ)
    (bs : List TokenBlock), (flatTokens bs).Nodup →
    (flatTokens (horizK toks i j fuel k bs)).Perm (flatTokens bs) := by
  intro fuel
  induction fuel with
  | zero => intro k bs _; exact .refl _
  | succ f ih =>
    intro k bs hd
    rw [horizK]
    dsimp only
    split
    · split
      · refine (ih _ _ ?_).trans (flat_mergeDelete_perm bs j _ hd)
        exact (flat_mergeDelete_perm bs j _ hd).symm.nodup hd
      · exact ih _ _ hd
    · exact .refl _

/-- The horizontal pass's inner loop permutes the flattened token list. -/
theorem horizJ_perm (toks : List Token) (i : ℕ) : ∀ (fuel j : ℕ) (merged : Bool)
    (bs : List TokenBlock), (flatTokens bs).Nodup →
    (flatTokens (horizJ toks i fuel j merged bs).1).Perm (flatTokens bs) := by
  intro fuel
  induction fuel with
  | zero => intro j merged bs _; exact .refl _
  | succ f ih =>
    intro j merged bs hd
    rw [horizJ]
    dsimp only
    split
    · split
      · have hk := horizK_perm toks i j (bs.length + 1) (j + 1) bs hd
        have hdk := hk.symm.nodup hd
        split
        · refine ((ih _ _ _ ?_).trans (flat_mergeDelete_perm _ i j hdk)).trans hk
          exact (flat_mergeDelete_perm _ i j hdk).symm.nodup hdk
        · exact (ih _ _ _ hdk).trans hk
      · exact ih _ _ _ hd
    · exact .refl _

/-- The horizontal pass's outer loop permutes the flattened token list. -/
theorem horizI_perm (toks : List Token) : ∀ (fuel i : ℕ) (bs : List TokenBlock),
    (flatTokens bs).Nodup →
    (flatTokens (horizI toks fuel i bs)).Perm (flatTokens bs) := by
  intro fuel
  induction fuel with
  | zero => intro i bs _; exact .refl _
  | succ f ih =>
    intro i bs hd
    rw [horizI]
    dsimp only
    split
    · have hj := horizJ_perm toks i (2 * bs.length + 2) (i + 1) false bs hd
      exact (ih _ _ (hj.symm.nodup hd)).trans hj
    · exact .refl _

/-- A flat-token permutation transports the partition invariant. -/
theorem partitionOk_of_perm {n : ℕ} {l l2 : List TokenBlock}
    (hp : (flatTokens l2).Perm (flatTokens l)) (h : partitionOk n l) :
    partitionOk n l2 := by
  obtain ⟨hd, hm⟩ := h
  refine ⟨hp.symm.nodup hd, fun i => ?_⟩
  rw [hp.mem_iff]
  exact hm i

/-- `find_block` finds a block exactly when some block owns the index. -/
theorem find_block_isSome_iff (bs : List TokenBlock) (idx : ℕ) :
    (find_block bs idx).isSome = true ↔ idx ∈ flatTokens bs := by
  unfold find_block
  rw [List.find?_isSome]
  constructor
  · rintro ⟨k, hk, hc⟩
    rw [List.mem_range] at hk
    refine (mem_flatTokens _ _).mpr ⟨bs.getD k dBlk, getD_mem bs k dBlk hk, ?_⟩
    simpa using hc
  · intro hm
    obtain ⟨b, hb, hbi⟩ := (mem_flatTokens _ _).mp hm
    obtain ⟨k, hk, rfl⟩ := List.mem_iff_getElem.mp hb
    refine ⟨k, List.mem_range.mpr hk, ?_⟩
    rw [List.getD_eq_getElem?_getD, List.getElem?_eq_getElem hk]
    simpa using hbi

/-- `find_block` returns `None` exactly when no block owns the index. -/
theorem find_block_none_iff (bs : List TokenBlock) (idx : ℕ) :
    find_block bs idx = none ↔ idx ∉ flatTokens bs := by
  rw [← find_block_isSome_iff]
  cases h : find_block bs idx <;> simp [h]

/-- A position returned by `find_block` is in range. -/
theorem find_block_lt (bs : List TokenBlock) (idx k : ℕ)
    (h : find_block bs idx = some k) : k < bs.length := by
  have := List.mem_of_find?_eq_some h
  simpa using this

/-- Adding an unowned index to the block at an in-range position extends
the flattened token list by exactly that index. -/
theorem flat_set_add_perm (bs : List TokenBlock) (k x : ℕ) (t : Token)
    (hk : k < bs.length) (hx : x ∉ flatTokens bs) :
    (flatTokens (bs.set k ((bs.getD k dBlk).add x t))).Perm (x :: flatTokens bs) := by
  have hxk : x ∉ (bs.getD k dBlk).tokens := fun hc =>
    hx ((mem_flatTokens _ _).mpr ⟨bs.getD k dBlk, getD_mem bs k dBlk hk, hc⟩)
  have hcont : (bs.getD k dBlk).tokens.contains x = false := by
    rw [← Bool.not_eq_true]
    intro hc
    exact hxk (by simpa using hc)
  have hcont2 : ¬((bs.getD k dBlk).tokens.contains x = true) := by
    rw [hcont]
    simp
  have htoks : ((bs.getD k dBlk).add x t).tokens = (bs.getD k dBlk).tokens ++ [x] := by
    unfold TokenBlock.add
    dsimp only
    rw [if_neg hcont2]
  have h1 := flatTokens_perm (perm_set_cons_eraseIdx ((bs.getD k dBlk).add x t) bs k hk)
  rw [flatTokens_cons, htoks] at h1
  have h2 : (flatTokens bs).Perm
      ((bs.getD k dBlk).tokens ++ flatTokens (bs.eraseIdx k)) := by
    have := flatTokens_perm (perm_getD_cons_eraseIdx dBlk bs k hk)
    simpa [flatTokens_cons] using this
  refine h1.trans ?_
  have h3 : (((bs.getD k dBlk).tokens ++ [x]) ++ flatTokens (bs.eraseIdx k)).Perm
      ([x] ++ ((bs.getD k dBlk).tokens ++ flatTokens (bs.eraseIdx k))) := by
    rw [List.append_assoc]
    exact perm_append_middle _ _ _
  refine h3.trans ?_
  simpa using h2.symm.cons x

/-- The absorption step of the neighbor walk keeps the flattened token
list duplicate-free and bounded, and never removes an index. -/
theorem absorb_inv (toks : List Token) (token : Token) (bIdx : ℕ) :
    ∀ (neighbors : List ℕ) (bs : List TokenBlock),
      (∀ n ∈ neighbors, n < toks.length) →
      (flatTokens bs).Nodup → (∀ x ∈ flatTokens bs, x < toks.length) →
      (flatTokens (absorb toks token bIdx bs neighbors)).Nodup ∧
      (∀ x ∈ flatTokens (absorb toks token bIdx bs neighbors), x < toks.length) ∧
      (∀ x ∈ flatTokens bs, x ∈ flatTokens (absorb toks token bIdx bs neighbors)) := by
  intro neighbors
  induction neighbors with
  | nil => intro bs _ hd hb; exact ⟨hd, hb, fun x hx => hx⟩
  | cons ni ns ih =>
    intro bs hn hd hb
    have hstep : absorb toks token bIdx bs (ni :: ns) =
        absorb toks token bIdx
          (if token.dy (toks.getD ni dTok) < token.font_size * (7/10) ∧
              ¬(bs.getD bIdx dBlk).tokens.contains ni ∧ find_block bs ni = none then
            bs.set bIdx ((bs.getD bIdx dBlk).add ni (toks.getD ni dTok))
          else bs) ns := by
      rw [absorb, absorb, List.foldl_cons]
    rw [hstep]
    split
    · next hcond =>
      have hni : ni ∉ flatTokens bs := (find_block_none_iff bs ni).mp hcond.2.2
      by_cases hbi : bIdx < bs.length
      · have hperm := flat_set_add_perm bs bIdx ni (toks.getD ni dTok) hbi hni
        have hd2 : (flatTokens (bs.set bIdx
            ((bs.getD bIdx dBlk).add ni (toks.getD ni dTok)))).Nodup := by
          refine hperm.symm.nodup ?_
          exact List.nodup_cons.mpr ⟨hni, hd⟩
        have hb2 : ∀ x ∈ flatTokens (bs.set bIdx
            ((bs.getD bIdx dBlk).add ni (toks.getD ni dTok))), x < toks.length := by
          intro x hxm
          rcases List.mem_cons.mp (hperm.mem_iff.mp hxm) with rfl | hxm2
          · exact hn x (List.mem_cons_self _ _)
          · exact hb x hxm2
        obtain ⟨hda, hba, hma⟩ := ih _ (fun n hn2 => hn n (List.mem_cons_of_mem _ hn2))
          hd2 hb2
        refine ⟨hda, hba, fun x hx => hma x ?_⟩
        exact hperm.mem_iff.mpr (List.mem_cons_of_mem _ hx)
      · rw [set_oob _ bs bIdx (by omega)]
        exact ih _ (fun n hn2 => hn n (List.mem_cons_of_mem _ hn2)) hd hb
    · exact ih _ (fun n hn2 => hn n (List.mem_cons_of_mem _ hn2)) hd hb

/-- The neighbor walk keeps the flattened token list duplicate-free and
bounded, and never removes an index. -/
theorem pnAux_inv (query : QueryFn) (toks : List Token) (start : Token) :
    ∀ (fuel : ℕ) (tok : Token) (bIdx : ℕ) (bs : List TokenBlock) (neighbors : List ℕ),
      (∀ n ∈ neighbors, n < toks.length) →
      (flatTokens bs).Nodup → (∀ x ∈ flatTokens bs, x < toks.length) →
      (flatTokens (pnAux query toks start fuel tok bIdx bs neighbors)).Nodup ∧
      (∀ x ∈ flatTokens (pnAux query toks start fuel tok bIdx bs neighbors),
        x < toks.length) ∧
      (∀ x ∈ flatTokens bs,
        x ∈ flatTokens (pnAux query toks start fuel tok bIdx bs neighbors)) := by
  intro fuel
  induction fuel with
  | zero => intro tok bIdx bs neighbors _ hd hb; exact ⟨hd, hb, fun x hx => hx⟩
  | succ f ih =>
    intro tok bIdx bs neighbors hn hd hb
    rw [pnAux]
    split
    · exact ⟨hd, hb, fun x hx => hx⟩
    · obtain ⟨hda, hba, hma⟩ := absorb_inv toks tok bIdx neighbors bs hn hd hb
      split
      · exact ⟨hda, hba, hma⟩
      · next ti _ =>
        obtain ⟨hdp, hbp, hmp⟩ := ih (toks.getD ti dTok) bIdx
          (absorb toks tok bIdx bs neighbors)
          ((query (toks.getD ti dTok).center true 10
              ((toks.getD ti dTok).font_size * 2)).filter (fun n =>
            decide (n < toks.length ∧ n ≠ ti ∧
              (toks.getD n dTok).center.x > (toks.getD ti dTok).x1 ∧
              (toks.getD n dTok).dy (toks.getD ti dTok) <
                (toks.getD ti dTok).font_size * (7/10) ∧
              (toks.getD n dTok).dy start < start.font_size)))
          (fun n hn2 => by
            have h2 := (List.mem_filter.mp hn2).2
            simp only [decide_eq_true_eq] at h2
            exact h2.1)
          hda hba
        exact ⟨hdp, hbp, fun x hx => hmp x (hma x hx)⟩

/-- The join-or-create step (plus optional forward walk) adds exactly the
current token index to the working blocks, preserving duplicate-freedom
and bounds. -/
theorem formStep2_inv (query : QueryFn) (toks : List Token) (current : ℕ)
    (token : Token) (sel : Option ℕ) (next_neighbors : List ℕ)
    (bs : List TokenBlock)
    (hcur : current < toks.length)
    (hnot : current ∉ flatTokens bs)
    (hsel : ∀ bIdx, sel = some bIdx → bIdx < bs.length)
    (hnn : ∀ n ∈ next_neighbors, n < toks.length)
    (hd : (flatTokens bs).Nodup)
    (hb : ∀ x ∈ flatTokens bs, x < toks.length) :
    (flatTokens (formStep2 query toks current token sel next_neighbors bs)).Nodup ∧
    (∀ x ∈ flatTokens (formStep2 query toks current token sel next_neighbors bs),
      x < toks.length) ∧
    current ∈ flatTokens (formStep2 query toks current token sel next_neighbors bs) ∧
    (∀ x ∈ flatTokens bs,
      x ∈ flatTokens (formStep2 query toks current token sel next_neighbors bs)) := by
  unfold formStep2
  cases sel with
  | none =>
    dsimp only
    have hflat : flatTokens (bs ++ [TokenBlock.from_token current token]) =
        flatTokens bs ++ [current] := by
      rw [flatTokens_append]
      rfl
    have hd1 : (flatTokens (bs ++ [TokenBlock.from_token current token])).Nodup := by
      rw [hflat]
      refine List.Nodup.append hd (List.nodup_singleton _) ?_
      intro a ha hb2
      rw [List.mem_singleton] at hb2
      subst hb2
      exact hnot ha
    have hb1 : ∀ x ∈ flatTokens (bs ++ [TokenBlock.from_token current token]),
        x < toks.length := by
      intro x hx
      rw [hflat] at hx
      rcases List.mem_append.mp hx with hx | hx
      · exact hb x hx
      · rw [List.mem_singleton] at hx
        subst hx
        exact hcur
    have hcm : current ∈ flatTokens (bs ++ [TokenBlock.from_token current token]) := by
      rw [hflat]
      exact List.mem_append_right _ (List.mem_singleton_self _)
    have hmono : ∀ x ∈ flatTokens bs,
        x ∈ flatTokens (bs ++ [TokenBlock.from_token current token]) := by
      intro x hx
      rw [hflat]
      exact List.mem_append_left _ hx
    split
    · exact ⟨hd1, hb1, hcm, hmono⟩
    · obtain ⟨hd2, hb2, hm2⟩ := pnAux_inv query toks token _ token bs.length
        (bs ++ [TokenBlock.from_token current token]) next_neighbors hnn hd1 hb1
      exact ⟨hd2, hb2, hm2 current hcm, fun x hx => hm2 x (hmono x hx)⟩
  | some bIdx =>
    dsimp only
    have hbi := hsel bIdx rfl
    have hperm := flat_set_add_perm bs bIdx current token hbi hnot
    have hd1 : (flatTokens (bs.set bIdx
        ((bs.getD bIdx dBlk).add current token))).Nodup :=
      hperm.symm.nodup (List.nodup_cons.mpr ⟨hnot, hd⟩)
    have hb1 : ∀ x ∈ flatTokens (bs.set bIdx
        ((bs.getD bIdx dBlk).add current token)), x < toks.length := by
      intro x hx
      rcases List.mem_cons.mp (hperm.mem_iff.mp hx) with rfl | hx2
      · exact hcur
      · exact hb x hx2
    have hcm : current ∈ flatTokens (bs.set bIdx
        ((bs.getD bIdx dBlk).add current token)) :=
      hperm.mem_iff.mpr (List.mem_cons_self _ _)
    have hmono : ∀ x ∈ flatTokens bs, x ∈ flatTokens (bs.set bIdx
        ((bs.getD bIdx dBlk).add current token)) := by
      intro x hx
      exact hperm.mem_iff.mpr (List.mem_cons_of_mem _ hx)
    split
    · exact ⟨hd1, hb1, hcm, hmono⟩
    · obtain ⟨hd2, hb2, hm2⟩ := pnAux_inv query toks token _ token bIdx
        (bs.set bIdx ((bs.getD bIdx dBlk).add current token)) next_neighbors hnn hd1 hb1
      exact ⟨hd2, hb2, hm2 current hcm, fun x hx => hm2 x (hmono x hx)⟩

/-- One formation iteration for an unclustered token adds exactly that
token index to the working blocks. -/
theorem formStep_inv (query : QueryFn) (toks : List Token) (current : ℕ)
    (bs : List TokenBlock)
    (hcur : current < toks.length)
    (hnot : current ∉ flatTokens bs)
    (hd : (flatTokens bs).Nodup)
    (hb : ∀ x ∈ flatTokens bs, x < toks.length) :
    (flatTokens (formStep query toks current bs)).Nodup ∧
    (∀ x ∈ flatTokens (formStep query toks current bs), x < toks.length) ∧
    current ∈ flatTokens (formStep query toks current bs) ∧
    (∀ x ∈ flatTokens bs, x ∈ flatTokens (formStep query toks current bs)) := by
  unfold formStep
  dsimp only
  apply formStep2_inv query toks current _ _ _ bs hcur hnot
  · intro bIdx h
    obtain ⟨ni, _, hfb⟩ := List.exists_of_findSome?_eq_some h
    exact find_block_lt bs ni bIdx hfb
  · intro n hn2
    have h2 := (List.mem_filter.mp hn2).2
    simp only [decide_eq_true_eq] at h2
    exact h2.1
  · exact hd
  · exact hb

/-- The formation loop builds a duplicate-free, bounded block set covering
all already-visited token indices. -/
theorem formLoop_inv (query : QueryFn) (toks : List Token) :
    ∀ (fuel cur : ℕ) (bs : List TokenBlock),
      toks.length ≤ cur + fuel →
      (flatTokens bs).Nodup →
      (∀ x ∈ flatTokens bs, x < toks.length) →
      (∀ i, i < cur → i ∈ flatTokens bs) →
      (flatTokens (formLoop query toks fuel cur bs)).Nodup ∧
      (∀ x ∈ flatTokens (formLoop query toks fuel cur bs), x < toks.length) ∧
      (∀ i, i < toks.length → i ∈ flatTokens (formLoop query toks fuel cur bs)) := by
  intro fuel
  induction fuel with
  | zero =>
    intro cur bs hle hd hb hcov
    rw [formLoop]
    exact ⟨hd, hb, fun i hi => hcov i (by omega)⟩
  | succ f ih =>
    intro cur bs hle hd hb hcov
    rw [formLoop]
    by_cases hcur : cur < toks.length
    · rw [if_pos hcur]
      by_cases hfb : (find_block bs cur).isSome = true
      · rw [if_pos hfb]
        have hmem : cur ∈ flatTokens bs := (find_block_isSome_iff bs cur).mp hfb
        refine ih (cur + 1) bs (by omega) hd hb ?_
        intro i hi
        rcases Nat.lt_succ_iff_lt_or_eq.mp hi with h | rfl
        · exact hcov i h
        · exact hmem
      · rw [if_neg hfb]
        have hnot : cur ∉ flatTokens bs := by
          rw [← find_block_isSome_iff]
          exact hfb
        obtain ⟨hd1, hb1, hcm, hmono⟩ := formStep_inv query toks cur bs hcur hnot hd hb
        refine ih (cur + 1) _ (by omega) hd1 hb1 ?_
        intro i hi
        rcases Nat.lt_succ_iff_lt_or_eq.mp hi with h | rfl
        · exact hmono i (hcov i h)
        · exact hcm
    · rw [if_neg hcur]
      exact ⟨hd, hb, fun i hi => hcov i (by omega)⟩

/-- C2: for every token set and every spatial-index query function, the
token-to-block assignment is a partition of the token indices — each
index in exactly one block — after block formation and after each of the
six merge passes. -/
theorem c2_partition (query : QueryFn) (toks : List Token) :
    partitionOk toks.length (formation query toks) ∧
    partitionOk toks.length (pass_overlap (formation query toks)) ∧
    partitionOk toks.length
      (pass_smallline toks (pass_overlap (formation query toks))) ∧
    partitionOk toks.length
      (pass_paragraph toks (pass_smallline toks (pass_overlap (formation query toks)))) ∧
    partitionOk toks.length
      (pass_colfwd toks (pass_paragraph toks (pass_smallline toks
        (pass_overlap (formation query toks))))) ∧
    partitionOk toks.length
      (pass_big toks (pass_colfwd toks (pass_paragraph toks (pass_smallline toks
        (pass_overlap (formation query toks)))))) ∧
    partitionOk toks.length
      (sixPasses toks (formation query toks)) := by
  have h0 : partitionOk toks.length (formation query toks) := by
    obtain ⟨hd, hb, hcov⟩ := formLoop_inv query toks toks.length 0 [] (by omega)
      (by simp [flatTokens]) (by simp [flatTokens]) (fun i hi => by omega)
    exact ⟨hd, fun i => ⟨fun hm => hb i hm, fun hi => hcov i hi⟩⟩
  have h1 : partitionOk toks.length (pass_overlap (formation query toks)) :=
    partitionOk_of_perm (overlapOuter_perm _ _ h0.1) h0
  have h2 : partitionOk toks.length
      (pass_smallline toks (pass_overlap (formation query toks))) :=
    partitionOk_of_perm (slOuter_perm toks _ _ _ h1.1) h1
  have h3 : partitionOk toks.length
      (pass_paragraph toks (pass_smallline toks (pass_overlap (formation query toks)))) :=
    partitionOk_of_perm (paraOuter_perm toks _ _ _ h2.1) h2
  have h4 : partitionOk toks.length
      (pass_colfwd toks (pass_paragraph toks (pass_smallline toks
        (pass_overlap (formation query toks))))) :=
    partitionOk_of_perm (colLoop_perm toks _ _ _ h3.1) h3
  have h5 : partitionOk toks.length
      (pass_big toks (pass_colfwd toks (pass_paragraph toks (pass_smallline toks
        (pass_overlap (formation query toks)))))) :=
    partitionOk_of_perm (bigLoop_perm toks _ _ _ h4.1) h4
  have h6 : partitionOk toks.length (sixPasses toks (formation query toks)) :=
    partitionOk_of_perm (horizI_perm toks _ _ _ h5.1) h5
  exact ⟨h0, h1, h2, h3, h4, h5, h6⟩

/-- Strictly increasing run ends, positionally. -/
theorem attrs_end_lt (attrs : List TextAttr)
    (hchain : List.Pairwise (fun a b => a.end_index < b.end_index) attrs)
    (j k : ℕ) (hjk : j < k) (hk : k < attrs.length) :
    (attrs.getD j ⟨0, 0⟩).end_index < (attrs.getD k ⟨0, 0⟩).end_index := by
  have hj : j < attrs.length := lt_trans hjk hk
  have h := List.pairwise_iff_get.mp hchain ⟨j, hj⟩ ⟨k, hk⟩ (Fin.mk_lt_mk.mpr hjk)
  rw [List.getD_eq_getElem?_getD, List.getElem?_eq_getElem hj,
      List.getD_eq_getElem?_getD, List.getElem?_eq_getElem hk]
  simpa using h

/-- Monotone run ends, positionally. -/
theorem attrs_end_le (attrs : List TextAttr)
    (hchain : List.Pairwise (fun a b => a.end_index < b.end_index) attrs)
    (j k : ℕ) (hjk : j ≤ k) (hk : k < attrs.length) :
    (attrs.getD j ⟨0, 0⟩).end_index ≤ (attrs.getD k ⟨0, 0⟩).end_index := by
  rcases eq_or_lt_of_le hjk with rfl | h
  · exact le_rfl
  · exact le_of_lt (attrs_end_lt attrs hchain j k h hk)

/-- `find?` hits a designated position when everything before it fails. -/
theorem find?_at_position {α} (p : α → Bool) : ∀ (l : List α) (c : ℕ) (d : α),
    c < l.length → (∀ j, j < c → p (l.getD j d) = false) →
    p (l.getD c d) = true → l.find? p = some (l.getD c d)
  | [], c, d, hc, _, _ => by simp at hc
  | x :: xs, 0, d, _, _, hp => by
    rw [List.getD_cons_zero] at hp ⊢
    exact List.find?_cons_of_pos _ hp
  | x :: xs, c + 1, d, hc, hprev, hp => by
    rw [List.getD_cons_succ] at hp ⊢
    rw [List.find?_cons_of_neg]
    · exact find?_at_position p xs c d (by simpa using hc)
        (fun j hj => by simpa using hprev (j + 1) (by omega)) hp
    · have h0 := hprev 0 (by omega)
      rw [List.getD_cons_zero] at h0
      simp [h0]

/-- The specified covering run of an index is the run the cursor points
at, whenever the cursor's run starts at or before the index and ends at
or after it. -/
theorem covering_at (attrs : List TextAttr)
    (hchain : List.Pairwise (fun a b => a.end_index < b.end_index) attrs)
    (c idx : ℕ) (hc : c < attrs.length)
    (hlow : c = 0 ∨ (attrs.getD (c - 1) ⟨0, 0⟩).end_index < idx)
    (hhigh : idx ≤ (attrs.getD c ⟨0, 0⟩).end_index) :
    specCoveringFontSize attrs idx = some ((attrs.getD c ⟨0, 0⟩).font_size) := by
  unfold specCoveringFontSize
  rw [find?_at_position (fun a => decide (idx ≤ a.end_index)) attrs c ⟨0, 0⟩ hc
    ?_ (by simpa using hhigh)]
  · rfl
  · intro j hj
    rcases hlow with rfl | hlow
    · omega
    · have hc0 : 0 < c := by omega
      have hje : (attrs.getD j ⟨0, 0⟩).end_index ≤
          (attrs.getD (c - 1) ⟨0, 0⟩).end_index :=
        attrs_end_le attrs hchain j (c - 1) (by omega) (by omega)
      simp only [decide_eq_false_iff_not]
      omega

/-- Unfolding one step of the specified token list. -/
theorem filterMap_token_cons (text : List Char) (attrs : List TextAttr)
    (idx : ℕ) (rect : Rectangle) (rest : List (ℕ × Rectangle)) :
    List.filterMap (fun p =>
      if isWs (text.getD p.1 ' ') then none
      else some (⟨p.2.x1, p.2.y1, p.2.x2, p.2.y2, text.getD p.1 ' ',
                 (specCoveringFontSize attrs p.1).getD 0⟩ : Token))
      ((idx, rect) :: rest) =
    (if isWs (text.getD idx ' ') then
      List.filterMap (fun p =>
        if isWs (text.getD p.1 ' ') then none
        else some (⟨p.2.x1, p.2.y1, p.2.x2, p.2.y2, text.getD p.1 ' ',
                   (specCoveringFontSize attrs p.1).getD 0⟩ : Token)) rest
    else (⟨rect.x1, rect.y1, rect.x2, rect.y2, text.getD idx ' ',
          (specCoveringFontSize attrs idx).getD 0⟩ : Token) ::
      List.filterMap (fun p =>
        if isWs (text.getD p.1 ' ') then none
        else some (⟨p.2.x1, p.2.y1, p.2.x2, p.2.y2, text.getD p.1 ' ',
                   (specCoveringFontSize attrs p.1).getD 0⟩ : Token)) rest) := by
  rw [List.filterMap_cons]
  dsimp only
  by_cases h : isWs (text.getD idx ' ')
  · rw [if_pos h, if_pos h]
  · rw [if_neg h, if_neg h]

/-- The tokenization loop, under a well-formed attribute list in which
every run touches a non-whitespace character: each emitted token carries
the covering run's font size. -/
theorem tokLoop_covering (text : List Char) (attrs : List TextAttr)
    (hchain : List.Pairwise (fun a b => a.end_index < b.end_index) attrs)
    (hinh : ∀ j, j < attrs.length → ∃ k, runStart attrs j ≤ k ∧
        k ≤ (attrs.getD j ⟨0, 0⟩).end_index ∧ isWs (text.getD k ' ') = false) :
    ∀ (rest : List Rectangle) (idx c : ℕ),
      (∀ i, idx ≤ i → i < idx + rest.length → ∃ a ∈ attrs, i ≤ a.end_index) →
      c < attrs.length →
      (c = 0 ∨ (attrs.getD (c - 1) ⟨0, 0⟩).end_index < idx) →
      (∀ k, k < idx → isWs (text.getD k ' ') = false →
        k ≤ (attrs.getD c ⟨0, 0⟩).end_index) →
      tokLoop text attrs idx c rest = .ok ((rest.enumFrom idx).filterMap (fun p =>
        if isWs (text.getD p.1 ' ') then none
        else some ⟨p.2.x1, p.2.y1, p.2.x2, p.2.y2, text.getD p.1 ' ',
                   (specCoveringFontSize attrs p.1).getD 0⟩)) := by
  intro rest
  induction rest with
  | nil => intro idx c _ _ _ _; simp [tokLoop]
  | cons rect rest' ih =>
    intro idx c hcov hc hlow hC
    rw [tokLoop]
    by_cases hw : isWs (text.getD idx ' ') = true
    · rw [if_pos hw]
      rw [ih (idx + 1) c (fun i h1 h2 => hcov i (by omega) (by simp; omega)) hc
        (by rcases hlow with h | h
            exacts [Or.inl h, Or.inr (by omega)])
        (fun k hk hnw => by
          rcases Nat.lt_succ_iff_lt_or_eq.mp hk with h | rfl
          · exact hC k h hnw
          · rw [hnw] at hw; simp at hw)]
      rw [List.enumFrom_cons, filterMap_token_cons, if_pos hw]
    · rw [if_neg hw]
      rw [if_pos hc]
      by_cases hadv : (attrs.getD c ⟨0, 0⟩).end_index < idx
      · have hC1 : c + 1 < attrs.length := by
          obtain ⟨a, ha, hae⟩ := hcov idx le_rfl (by simp)
          obtain ⟨j, hj, rfl⟩ := List.mem_iff_getElem.mp ha
          by_contra hcon
          have hjc : j ≤ c := by omega
          have hle : attrs[j].end_index ≤ (attrs.getD c ⟨0, 0⟩).end_index := by
            have := attrs_end_le attrs hchain j c hjc hc
            rwa [List.getD_eq_getElem?_getD, List.getElem?_eq_getElem hj] at this
          omega
        have hcov_next : idx ≤ (attrs.getD (c + 1) ⟨0, 0⟩).end_index := by
          by_contra hcon
          obtain ⟨k, hk1, hk2, hk3⟩ := hinh (c + 1) hC1
          have hrs : runStart attrs (c + 1) = (attrs.getD c ⟨0, 0⟩).end_index + 1 := by
            unfold runStart
            simp
          have hklt : k < idx := by omega
          have := hC k hklt hk3
          omega
        have hadvC : advanceCursor attrs idx c = c + 1 := by
          unfold advanceCursor
          rw [if_pos hadv]
        rw [hadvC, if_pos hC1]
        rw [ih (idx + 1) (c + 1) (fun i h1 h2 => hcov i (by omega) (by simp; omega)) hC1
          (Or.inr (by simpa using Nat.lt_succ_of_lt hadv))
          (fun k hk hnw => by
            rcases Nat.lt_succ_iff_lt_or_eq.mp hk with h | rfl
            · exact le_trans (hC k h hnw)
                (le_of_lt (attrs_end_lt attrs hchain c (c + 1) (by omega) hC1))
            · exact hcov_next)]
        have hspec := covering_at attrs hchain (c + 1) idx hC1
          (Or.inr (by simpa using hadv)) hcov_next
        rw [List.enumFrom_cons, filterMap_token_cons, if_neg hw, hspec]
        rfl
      · have hadvC : advanceCursor attrs idx c = c := by
          unfold advanceCursor
          rw [if_neg hadv]
        push_neg at hadv
        rw [hadvC, if_pos hc]
        rw [ih (idx + 1) c (fun i h1 h2 => hcov i (by omega) (by simp; omega)) hc
          (by rcases hlow with h | h
              exacts [Or.inl h, Or.inr (by omega)])
          (fun k hk hnw => by
            rcases Nat.lt_succ_iff_lt_or_eq.mp hk with h | rfl
            · exact hC k h hnw
            · exact hadv)]
        have hspec := covering_at attrs hchain c idx hc hlow hadv
        rw [List.enumFrom_cons, filterMap_token_cons, if_neg hw, hspec]
        rfl

/-- C5 (amended): for aligned text and layout, an ordered run-length
attribute list covering all character indices, and *every run containing
at least one non-whitespace character*, the tokenizer produces exactly
one token per non-whitespace character, carrying that character, its
rectangle, and the font size of the run covering its index.  (Without the
run-inhabitation condition the cursor — which advances at most one run
per non-whitespace character — can lag behind the covering run; see the
counterexample.) -/
theorem c5_tokenizer_covering (text : List Char) (layout : List Rectangle)
    (attrs : List TextAttr)
    (hlen : text.length = layout.length)
    (hchain : List.Pairwise (fun a b => a.end_index < b.end_index) attrs)
    (hcov : ∀ i, i < layout.length → ∃ a ∈ attrs, i ≤ a.end_index)
    (hinh : ∀ j, j < attrs.length → ∃ k, runStart attrs j ≤ k ∧
        k ≤ (attrs.getD j ⟨0, 0⟩).end_index ∧ isWs (text.getD k ' ') = false) :
    tokenize text layout attrs = .ok (layout.enum.filterMap (fun p =>
      if isWs (text.getD p.1 ' ') then none
      else some ⟨p.2.x1, p.2.y1, p.2.x2, p.2.y2, text.getD p.1 ' ',
                 (specCoveringFontSize attrs p.1).getD 0⟩)) := by
  unfold tokenize
  rw [if_neg (by omega)]
  cases layout with
  | nil => simp [tokLoop, List.enum, List.enumFrom]
  | cons rect rest =>
    have h0 : 0 < attrs.length := by
      obtain ⟨a, ha, _⟩ := hcov 0 (by simp)
      exact List.length_pos.mpr (List.ne_nil_of_mem ha)
    have hmain := tokLoop_covering text attrs hchain hinh (rect :: rest) 0 0
      (fun i _ h2 => hcov i (by simpa using h2)) h0 (Or.inl rfl)
      (fun k hk _ => by omega)
    rw [hmain]
    rfl

/-- C5 witness: one run covering a two-character text; the amended
theorem computes both tokens with the covering font size. -/
theorem c5_witness :
    tokenize ['a', 'b'] [⟨0, 0, 1, 1⟩, ⟨1, 0, 2, 1⟩] [⟨1, 10⟩] =
      .ok (([(⟨0, 0, 1, 1⟩ : Rectangle), ⟨1, 0, 2, 1⟩].enum).filterMap (fun p =>
        if isWs ((['a', 'b'].getD p.1 ' ')) then none
        else some ⟨p.2.x1, p.2.y1, p.2.x2, p.2.y2, ['a', 'b'].getD p.1 ' ',
                   (specCoveringFontSize [⟨1, 10⟩] p.1).getD 0⟩)) :=
  c5_tokenizer_covering ['a', 'b'] [⟨0, 0, 1, 1⟩, ⟨1, 0, 2, 1⟩] [⟨1, 10⟩]
    (by decide)
    (by decide)
    (by intro i hi
        refine ⟨⟨1, 10⟩, by decide, ?_⟩
        simp only [List.length_cons, List.length_nil] at hi
        show i ≤ 1
        omega)
    (by intro j hj
        have hj0 : j = 0 := by simpa using hj
        subst hj0
        exact ⟨0, by decide, by decide, by decide⟩)
